import Mathlib

/-!
# Verification of the procmon rule engine, icon cache and notification scheduler

Shallow embedding of the core logic of the PyQt5-procmon repository:

* `determine_process_status` (src/procmon/system_tray.py) and
  `check_process_block_status` (src/procmon/monitoring/process_monitor.py):
  the allow/block rule-resolution engine;
* `load_allow_list` / `reload_allow_list` (src/procmon/utils/config.py,
  src/procmon/system_tray.py): rule-list loading and hot reload;
* `IconCache` (src/procmon/icons/cache.py);
* `NotificationManager` (src/procmon/ui/notification_manager.py):
  rate limiting, admission, queueing, and the layout passes
  `update_positions`, `find_empty_spaces`, `fill_empty_space`.

Python strings are modelled as `List Char`, timestamps (`time.time()` /
`datetime.now()`) as `ℚ`, pixel coordinates (Qt ints) as `ℤ`.
-/

namespace Procmon

/-! ## Path normalisation (rule engine)

`determine_process_status` normalises with
`path.lower().replace("/", "\\").rstrip("\\")`, and `os.path.basename`
(ntpath, the app is Windows-only) takes the part after the last separator,
after splitting off a `X:` drive prefix. -/

/-- A path / rule entry: a Python string as a list of characters. -/
abbrev PathStr := List Char

/-- `s.lower()` -/
def lowerStr (s : PathStr) : PathStr := s.map Char.toLower

/-- `s.replace("/", "\\")` -/
def replSlash (s : PathStr) : PathStr :=
  s.map (fun c => if c = '/' then '\\' else c)

/-- `s.rstrip("\\")`: remove every trailing backslash. -/
def rstripBS (s : PathStr) : PathStr :=
  (s.reverse.dropWhile (fun c => c = '\\')).reverse

/-- `entry.lower().replace("/", "\\").rstrip("\\")`: the normal form used for
exact-path comparison of both the candidate path and list entries. -/
def normEntry (s : PathStr) : PathStr := rstripBS (replSlash (lowerStr s))

/-- Part of a string after the last backslash. -/
def afterLastBS (s : PathStr) : PathStr :=
  (s.reverse.takeWhile (fun c => c ≠ '\\')).reverse

/-- `os.path.basename` (ntpath) applied to an already separator-normalised,
lowercased path: split off a leading `X:` drive prefix, then take the part
after the last backslash. -/
def basenameStr (s : PathStr) : PathStr :=
  match s with
  | _ :: ':' :: rest => afterLastBS rest
  | _ => afterLastBS s

/-- `entry.endswith("\\")` -/
def endsWithBS (s : PathStr) : Bool :=
  match s.reverse with
  | '\\' :: _ => true
  | _ => false

/-- `entry.count("\\")`: number of backslashes, the "depth" of a directory
rule. -/
def countBS (s : PathStr) : ℤ :=
  (s.filter (fun c => c = '\\')).length

end Procmon

namespace Procmon

/-! ## The rule engine: `determine_process_status` (src/procmon/system_tray.py)

Returns `(final_status, rule_type, match_depth)` where `final_status` is
`none` (no rule matched), `some true` (allowed) or `some false` (blocked). -/

/-- The directory-rule matches of one list against a normalised path:
entries are lowercased and slash-normalised (NOT rstripped), must end in a
backslash, and must be a prefix of the path; paired with their depth
(backslash count), in list order. -/
def dirMatches (lst : List PathStr) (pathLower : PathStr) : List (ℤ × PathStr) :=
  lst.filterMap (fun entry =>
    let el := replSlash (lowerStr entry)
    if endsWithBS el ∧ el.isPrefixOf pathLower then
      some (countBS el, el)
    else none)

/-- Python's `max(xs, key=lambda x: x[0], default=None)`: first element of
maximal depth, `none` on the empty list. -/
def maxByDepth (xs : List (ℤ × PathStr)) : Option (ℤ × PathStr) :=
  xs.foldl (fun acc x =>
    match acc with
    | none => some x
    | some m => if m.1 < x.1 then some x else some m) none

/-- `SystemTrayApp.determine_process_status` (src/procmon/system_tray.py,
lines 105-247), the primary rule-resolution function. -/
def determine_process_status (path : PathStr) (block_list allow_list : List PathStr) :
    Option Bool × String × ℤ :=
  let path_lower := normEntry path
  let process_name_lower := basenameStr path_lower
  let exact_path_in_block := (block_list.map normEntry).contains path_lower
  let exact_path_in_allow := (allow_list.map normEntry).contains path_lower
  if exact_path_in_block ∧ exact_path_in_allow then
    (some true, "exact_path_both_lists", -1)
  else if exact_path_in_allow then
    (some true, "exact_path_allow", -1)
  else if exact_path_in_block then
    (some false, "exact_path_block", -1)
  else
    let process_name_in_allow := (allow_list.map lowerStr).contains process_name_lower
    let process_name_in_block := (block_list.map lowerStr).contains process_name_lower
    if process_name_in_allow ∧ process_name_in_block then
      (some true, "process_name_both_lists", -1)
    else if process_name_in_allow then
      (some true, "process_name_allow", -1)
    else if process_name_in_block then
      (some false, "process_name_block", -1)
    else
      let allow_dir_matches := dirMatches allow_list path_lower
      let block_dir_matches := dirMatches block_list path_lower
      match maxByDepth allow_dir_matches, maxByDepth block_dir_matches with
      | some deepest_allow, some deepest_block =>
          if deepest_block.1 ≤ deepest_allow.1 then
            (some true, "directory_allow", deepest_allow.1)
          else
            (some false, "directory_block", deepest_block.1)
      | some deepest_allow, none =>
          (some true, "directory_allow", deepest_allow.1)
      | none, some deepest_block =>
          (some false, "directory_block", deepest_block.1)
      | none, none =>
          if (block_list.map lowerStr).contains ('a' :: 'l' :: 'l' :: []) then
            (some false, "all_keyword", -1)
          else
            (none, "", -1)

/-- `ProcessMonitor.check_process_block_status`
(src/procmon/monitoring/process_monitor.py, lines 162-251), the fallback
rule function; returns `(is_blocked, is_allowed)`.  Note that it normalises
the whole lists with `rstrip("\\")` up front, and only afterwards asks
`entry.endswith("\\")` in the directory step. -/
def check_process_block_status (path : PathStr) (block_list allow_list : List PathStr) :
    Bool × Bool :=
  let path_lower := normEntry path
  let process_name_lower := basenameStr path_lower
  let block_list_lower := block_list.map normEntry
  let allow_list_lower := allow_list.map normEntry
  if allow_list_lower.contains path_lower ∧ block_list_lower.contains path_lower then
    (false, true)
  else if allow_list_lower.contains path_lower then
    (false, true)
  else if block_list_lower.contains path_lower then
    (true, false)
  else if allow_list_lower.contains process_name_lower ∧
          block_list_lower.contains process_name_lower then
    (false, true)
  else if allow_list_lower.contains process_name_lower then
    (false, true)
  else if block_list_lower.contains process_name_lower then
    (true, false)
  else
    let allow_dir_matches := allow_list_lower.filterMap (fun entry =>
      if endsWithBS entry ∧ entry.isPrefixOf path_lower then
        some (countBS entry, entry) else none)
    let block_dir_matches := block_list_lower.filterMap (fun entry =>
      if endsWithBS entry ∧ entry.isPrefixOf path_lower then
        some (countBS entry, entry) else none)
    match maxByDepth allow_dir_matches, maxByDepth block_dir_matches with
    | some deepest_allow, some deepest_block =>
        if deepest_block.1 ≤ deepest_allow.1 then (false, true) else (true, false)
    | some _, none => (false, true)
    | none, some _ => (true, false)
    | none, none =>
        if block_list_lower.contains ('a' :: 'l' :: 'l' :: []) then (true, false)
        else (false, false)

end Procmon

namespace Procmon

/-- One step of Python's `max(..., key=..., default=None)` fold. -/
def maxStep (acc : Option (ℤ × PathStr)) (x : ℤ × PathStr) : Option (ℤ × PathStr) :=
  match acc with
  | none => some x
  | some m => if m.1 < x.1 then some x else some m

lemma maxByDepth_eq_foldl (xs : List (ℤ × PathStr)) :
    maxByDepth xs = xs.foldl maxStep none := rfl

lemma foldl_maxStep_mem : ∀ (xs : List (ℤ × PathStr)) (acc : Option (ℤ × PathStr)) (m : ℤ × PathStr),
    xs.foldl maxStep acc = some m → acc = some m ∨ m ∈ xs := by
  intro xs
  induction xs with
  | nil => intro acc m h; exact Or.inl h
  | cons x t ih =>
    intro acc m h
    simp only [List.foldl_cons] at h
    rcases ih (maxStep acc x) m h with h1 | h1
    · cases acc with
      | none => simp [maxStep] at h1; simp [h1]
      | some a =>
        simp only [maxStep] at h1
        by_cases hc : a.1 < x.1
        · simp [hc] at h1; simp [h1]
        · simp [hc] at h1; exact Or.inl (by simp [h1])
    · simp [h1]

lemma foldl_maxStep_le : ∀ (xs : List (ℤ × PathStr)) (acc : Option (ℤ × PathStr)) (m : ℤ × PathStr),
    xs.foldl maxStep acc = some m →
    (∀ a, acc = some a → a.1 ≤ m.1) ∧ (∀ x ∈ xs, x.1 ≤ m.1) := by
  intro xs
  induction xs with
  | nil =>
    intro acc m h
    refine ⟨fun a ha => ?_, by simp⟩
    simp only [List.foldl_nil] at h; rw [ha] at h; simp at h; simp [h]
  | cons x t ih =>
    intro acc m h
    simp only [List.foldl_cons] at h
    obtain ⟨h1, h2⟩ := ih (maxStep acc x) m h
    constructor
    · intro a ha
      subst ha
      cases hmx : maxStep (some a) x with
      | none => simp [maxStep] at hmx; split at hmx <;> simp_all
      | some b =>
        have hb := h1 b hmx
        simp only [maxStep] at hmx
        by_cases hc : a.1 < x.1
        · simp [hc] at hmx; subst hmx; omega
        · simp [hc] at hmx; subst hmx; exact hb
    · intro y hy
      rcases List.mem_cons.mp hy with h' | hy
      · rw [h']
        cases hmx : maxStep acc x with
        | none => cases acc <;> simp [maxStep] at hmx; split at hmx <;> simp_all
        | some b =>
          have hb := h1 b hmx
          cases acc with
          | none => simp [maxStep] at hmx; subst hmx; exact hb
          | some a =>
            simp only [maxStep] at hmx
            by_cases hc : a.1 < x.1
            · simp [hc] at hmx; subst hmx; exact hb
            · simp [hc] at hmx; subst hmx; omega
      · exact h2 _ hy

lemma foldl_maxStep_none : ∀ (xs : List (ℤ × PathStr)) (acc : Option (ℤ × PathStr)),
    xs.foldl maxStep acc = none ↔ acc = none ∧ xs = [] := by
  intro xs
  induction xs with
  | nil => intro acc; simp
  | cons x t ih =>
    intro acc
    simp only [List.foldl_cons, ih]
    constructor
    · rintro ⟨h1, h2⟩
      exfalso
      cases acc <;> simp [maxStep] at h1
      split at h1 <;> simp_all
    · rintro ⟨_, h⟩; exact absurd h (by simp)

/-- `maxByDepth` returns `none` exactly on the empty list. -/
lemma maxByDepth_eq_none (xs : List (ℤ × PathStr)) :
    maxByDepth xs = none ↔ xs = [] := by
  rw [maxByDepth_eq_foldl, foldl_maxStep_none]; simp

/-- `maxByDepth` returns a member of maximal depth. -/
lemma maxByDepth_spec (xs : List (ℤ × PathStr)) (m : ℤ × PathStr)
    (h : maxByDepth xs = some m) : m ∈ xs ∧ ∀ x ∈ xs, x.1 ≤ m.1 := by
  rw [maxByDepth_eq_foldl] at h
  rcases foldl_maxStep_mem xs none m h with h1 | h1
  · simp at h1
  · exact ⟨h1, (foldl_maxStep_le xs none m h).2⟩

end Procmon

namespace Procmon

/-- After the exact-path and base-name steps both fail, `determine_process_status`
is decided by the directory step (and then the wildcard step). -/
lemma ds_after_names (path : PathStr) (bl al : List PathStr)
    (h1 : (bl.map normEntry).contains (normEntry path) = false)
    (h2 : (al.map normEntry).contains (normEntry path) = false)
    (h3 : (bl.map lowerStr).contains (basenameStr (normEntry path)) = false)
    (h4 : (al.map lowerStr).contains (basenameStr (normEntry path)) = false) :
    determine_process_status path bl al =
      match maxByDepth (dirMatches al (normEntry path)),
            maxByDepth (dirMatches bl (normEntry path)) with
      | some da, some db =>
          if db.1 ≤ da.1 then (some true, "directory_allow", da.1)
          else (some false, "directory_block", db.1)
      | some da, none => (some true, "directory_allow", da.1)
      | none, some db => (some false, "directory_block", db.1)
      | none, none =>
          if (bl.map lowerStr).contains ('a' :: 'l' :: 'l' :: []) then
            (some false, "all_keyword", -1)
          else (none, "", -1) := by
  simp only [determine_process_status, h1, h2, h3, h4]
  simp

end Procmon

namespace Procmon

/-- General directory-step resolution: with no exact-path and no base-name
match, the deeper list's qualifying entry wins and equal depth favors allow;
a single qualifying list wins outright. -/
theorem directory_step_resolution (path : PathStr) (bl al : List PathStr)
    (h1 : normEntry path ∉ bl.map normEntry)
    (h2 : normEntry path ∉ al.map normEntry)
    (h3 : basenameStr (normEntry path) ∉ bl.map lowerStr)
    (h4 : basenameStr (normEntry path) ∉ al.map lowerStr) :
    (dirMatches al (normEntry path) ≠ [] → dirMatches bl (normEntry path) ≠ [] →
      (∀ db ∈ dirMatches bl (normEntry path),
        ∃ da ∈ dirMatches al (normEntry path), db.1 ≤ da.1) →
      (determine_process_status path bl al).1 = some true)
    ∧ (dirMatches al (normEntry path) ≠ [] → dirMatches bl (normEntry path) ≠ [] →
      (∃ db ∈ dirMatches bl (normEntry path),
        ∀ da ∈ dirMatches al (normEntry path), da.1 < db.1) →
      (determine_process_status path bl al).1 = some false)
    ∧ (dirMatches al (normEntry path) ≠ [] → dirMatches bl (normEntry path) = [] →
      (determine_process_status path bl al).1 = some true)
    ∧ (dirMatches al (normEntry path) = [] → dirMatches bl (normEntry path) ≠ [] →
      (determine_process_status path bl al).1 = some false) := by
  have hc1 : (bl.map normEntry).contains (normEntry path) = false := by simpa using h1
  have hc2 : (al.map normEntry).contains (normEntry path) = false := by simpa using h2
  have hc3 : (bl.map lowerStr).contains (basenameStr (normEntry path)) = false := by
    simpa using h3
  have hc4 : (al.map lowerStr).contains (basenameStr (normEntry path)) = false := by
    simpa using h4
  have hred := ds_after_names path bl al hc1 hc2 hc3 hc4
  refine ⟨?_, ?_, ?_, ?_⟩
  · intro ha hb hdeep
    obtain ⟨ma, hma⟩ := Option.ne_none_iff_exists'.mp
      (fun hn => ha ((maxByDepth_eq_none _).mp hn))
    obtain ⟨mb, hmb⟩ := Option.ne_none_iff_exists'.mp
      (fun hn => hb ((maxByDepth_eq_none _).mp hn))
    obtain ⟨hmem_b, _⟩ := maxByDepth_spec _ _ hmb
    obtain ⟨_, hle_a⟩ := maxByDepth_spec _ _ hma
    obtain ⟨da, hda, hdb_le⟩ := hdeep mb hmem_b
    have : mb.1 ≤ ma.1 := le_trans hdb_le (hle_a da hda)
    rw [hred]
    simp [hma, hmb, this]
  · intro ha hb hdeep
    obtain ⟨ma, hma⟩ := Option.ne_none_iff_exists'.mp
      (fun hn => ha ((maxByDepth_eq_none _).mp hn))
    obtain ⟨mb, hmb⟩ := Option.ne_none_iff_exists'.mp
      (fun hn => hb ((maxByDepth_eq_none _).mp hn))
    obtain ⟨hmem_a, _⟩ := maxByDepth_spec _ _ hma
    obtain ⟨_, hle_b⟩ := maxByDepth_spec _ _ hmb
    obtain ⟨db, hdb, hstrict⟩ := hdeep
    have h5 : ma.1 < db.1 := hstrict ma hmem_a
    have h6 : db.1 ≤ mb.1 := hle_b db hdb
    have : ¬ (mb.1 ≤ ma.1) := by omega
    rw [hred]
    simp [hma, hmb, this]
  · intro ha hb
    obtain ⟨ma, hma⟩ := Option.ne_none_iff_exists'.mp
      (fun hn => ha ((maxByDepth_eq_none _).mp hn))
    have hmb : maxByDepth (dirMatches bl (normEntry path)) = none := by
      rw [maxByDepth_eq_none]; exact hb
    rw [hred]; simp [hma, hmb]
  · intro ha hb
    obtain ⟨mb, hmb⟩ := Option.ne_none_iff_exists'.mp
      (fun hn => hb ((maxByDepth_eq_none _).mp hn))
    have hma : maxByDepth (dirMatches al (normEntry path)) = none := by
      rw [maxByDepth_eq_none]; exact ha
    rw [hred]; simp [hma, hmb]

end Procmon

namespace Procmon

/-- C3: on the claim's inputs the primary resolver `determine_process_status`
gives the claimed verdicts (deepest directory wins, swapping flips it), but the
fallback `check_process_block_status` — whose docstring promises the same rule
priority — returns "no rule matched" on both, because it strips trailing
backslashes from every entry before testing `endswith("\\")`, so its
directory step can never match. -/
theorem C3_directory_depth :
    (determine_process_status "C:\\Sub\\app.exe".toList
      ["C:\\".toList] ["C:\\Sub\\".toList]).1 = some true
    ∧ (determine_process_status "C:\\Sub\\app.exe".toList
      ["C:\\Sub\\".toList] ["C:\\".toList]).1 = some false
    ∧ check_process_block_status "C:\\Sub\\app.exe".toList
      ["C:\\".toList] ["C:\\Sub\\".toList] = (false, false)
    ∧ check_process_block_status "C:\\Sub\\app.exe".toList
      ["C:\\Sub\\".toList] ["C:\\".toList] = (false, false)
    ∧ (∀ entry : PathStr, endsWithBS (rstripBS entry) = false) := by
  refine ⟨by decide, by decide, by decide, by decide, ?_⟩
  intro entry
  simp only [rstripBS, endsWithBS]
  rw [List.reverse_reverse]
  cases h : entry.reverse.dropWhile (fun c => c = '\\') with
  | nil => simp
  | cons c t =>
    have := List.head_dropWhile_not (p := fun c => c = '\\') (l := entry.reverse)
    rw [h] at this
    simp at this
    simp [this]

end Procmon

namespace Procmon

/-- C4: an exact full-path match has the highest priority; allow wins ties;
a single-list exact match applies regardless of every other rule (base-name,
directory, wildcard), in both the primary resolver and the fallback.
The claim's concrete instance: block=["x.exe"], allow=["C:\A\x.exe"],
path "C:\A\x.exe" is Allowed. -/
theorem C4_exact_path_priority :
    (∀ (path : PathStr) (bl al : List PathStr),
      normEntry path ∈ bl.map normEntry → normEntry path ∈ al.map normEntry →
      (determine_process_status path bl al).1 = some true
      ∧ check_process_block_status path bl al = (false, true))
    ∧ (∀ (path : PathStr) (bl al : List PathStr),
      normEntry path ∈ al.map normEntry →
      (determine_process_status path bl al).1 = some true
      ∧ check_process_block_status path bl al = (false, true))
    ∧ (∀ (path : PathStr) (bl al : List PathStr),
      normEntry path ∉ al.map normEntry → normEntry path ∈ bl.map normEntry →
      (determine_process_status path bl al).1 = some false
      ∧ check_process_block_status path bl al = (true, false))
    ∧ (determine_process_status "C:\\A\\x.exe".toList
        ["x.exe".toList] ["C:\\A\\x.exe".toList]).1 = some true
    ∧ check_process_block_status "C:\\A\\x.exe".toList
        ["x.exe".toList] ["C:\\A\\x.exe".toList] = (false, true) := by
  refine ⟨?_, ?_, ?_, by decide, by decide⟩
  · intro path bl al hb ha
    have hcb : (bl.map normEntry).contains (normEntry path) = true := by simpa using hb
    have hca : (al.map normEntry).contains (normEntry path) = true := by simpa using ha
    constructor
    · simp only [determine_process_status, hcb, hca]; simp
    · simp only [check_process_block_status, hcb, hca]; simp
  · intro path bl al ha
    have hca : (al.map normEntry).contains (normEntry path) = true := by simpa using ha
    constructor
    · by_cases hcb : (bl.map normEntry).contains (normEntry path) = true
      · simp only [determine_process_status, hcb, hca]; simp
      · simp only [determine_process_status, hca, Bool.eq_false_iff.mpr hcb]; simp
    · by_cases hcb : (bl.map normEntry).contains (normEntry path) = true
      · simp only [check_process_block_status, hcb, hca]; simp
      · simp only [check_process_block_status, hca, Bool.eq_false_iff.mpr hcb]; simp
  · intro path bl al ha hb
    have hcb : (bl.map normEntry).contains (normEntry path) = true := by simpa using hb
    have hca : (al.map normEntry).contains (normEntry path) = false := by simpa using ha
    constructor
    · simp only [determine_process_status, hcb, hca]; simp
    · simp only [check_process_block_status, hcb, hca]; simp

/-- C4 witness: the first and second parts of `C4_exact_path_priority`
applied at concrete inputs. -/
theorem C4_exact_path_priority_witness :
    ((determine_process_status "D:\\P\\q.exe".toList
        ["d:/p/Q.EXE".toList] ["D:\\P\\q.exe".toList]).1 = some true)
    ∧ check_process_block_status "D:\\P\\q.exe".toList
        ["other.exe".toList] ["D:\\P\\q.exe".toList] = (false, true) := by
  constructor
  · exact (C4_exact_path_priority.1 "D:\\P\\q.exe".toList
      ["d:/p/Q.EXE".toList] ["D:\\P\\q.exe".toList] (by decide) (by decide)).1
  · exact (C4_exact_path_priority.2.1 "D:\\P\\q.exe".toList
      ["other.exe".toList] ["D:\\P\\q.exe".toList] (by decide)).2

end Procmon

namespace Procmon

/-- C5: when no exact-path, base-name or directory rule matches, the verdict
is Blocked exactly when the block list contains the case-insensitive entry
"ALL", and otherwise a third status (`none`) distinct from both Allowed and
Blocked; any higher-priority match (the claim's allow base-name example)
overrides the wildcard. -/
theorem C5_wildcard_lowest_priority :
    (∀ (path : PathStr) (bl al : List PathStr),
      normEntry path ∉ bl.map normEntry → normEntry path ∉ al.map normEntry →
      basenameStr (normEntry path) ∉ bl.map lowerStr →
      basenameStr (normEntry path) ∉ al.map lowerStr →
      dirMatches bl (normEntry path) = [] → dirMatches al (normEntry path) = [] →
      (determine_process_status path bl al).1 =
        (if (bl.map lowerStr).contains ('a' :: 'l' :: 'l' :: []) then some false else none))
    ∧ ((none : Option Bool) ≠ some true ∧ (none : Option Bool) ≠ some false)
    ∧ (determine_process_status "C:\\Any\\app.exe".toList
        ["ALL".toList] ["app.exe".toList]).1 = some true
    ∧ (determine_process_status "C:\\Any\\app.exe".toList ["ALL".toList] []).1 = some false
    ∧ (determine_process_status "C:\\Any\\app.exe".toList [] []).1 = none := by
  refine ⟨?_, by decide, by decide, by decide, by decide⟩
  intro path bl al h1 h2 h3 h4 hdb hda
  have hc1 : (bl.map normEntry).contains (normEntry path) = false := by simpa using h1
  have hc2 : (al.map normEntry).contains (normEntry path) = false := by simpa using h2
  have hc3 : (bl.map lowerStr).contains (basenameStr (normEntry path)) = false := by
    simpa using h3
  have hc4 : (al.map lowerStr).contains (basenameStr (normEntry path)) = false := by
    simpa using h4
  rw [ds_after_names path bl al hc1 hc2 hc3 hc4]
  have hma : maxByDepth (dirMatches al (normEntry path)) = none := by
    rw [maxByDepth_eq_none]; exact hda
  have hmb : maxByDepth (dirMatches bl (normEntry path)) = none := by
    rw [maxByDepth_eq_none]; exact hdb
  rw [hma, hmb]
  rw [apply_ite (fun x : Option Bool × String × ℤ => x.1)]

/-- C5 witness: `C5_wildcard_lowest_priority` applied at concrete inputs with
and without the wildcard entry. -/
theorem C5_wildcard_lowest_priority_witness :
    (determine_process_status "C:\\Any\\app.exe".toList ["All".toList]
      ["x.exe".toList]).1 = some false
    ∧ (determine_process_status "C:\\Any\\app.exe".toList ["y.exe".toList]
      ["x.exe".toList]).1 = none := by
  constructor
  · have := C5_wildcard_lowest_priority.1 "C:\\Any\\app.exe".toList
      ["All".toList] ["x.exe".toList]
      (by decide) (by decide) (by decide) (by decide) (by decide) (by decide)
    rw [this]; decide
  · have := C5_wildcard_lowest_priority.1 "C:\\Any\\app.exe".toList
      ["y.exe".toList] ["x.exe".toList]
      (by decide) (by decide) (by decide) (by decide) (by decide) (by decide)
    rw [this]; decide

/-- C3 auxiliary witness-style instance of `directory_step_resolution`:
the claim's example discharged through the general directory-depth theorem
rather than by evaluation. -/
theorem directory_step_resolution_instance :
    (determine_process_status "C:\\Sub\\app.exe".toList
      ["C:\\".toList] ["C:\\Sub\\".toList]).1 = some true := by
  exact (directory_step_resolution "C:\\Sub\\app.exe".toList
      ["C:\\".toList] ["C:\\Sub\\".toList]
      (by decide) (by decide) (by decide) (by decide)).1
    (by decide) (by decide) (by decide)

end Procmon

namespace Procmon

/-! ## Rule-list loading and hot reload
(src/procmon/utils/config.py `load_allow_list`/`load_block_list`,
src/procmon/system_tray.py `reload_allow_list`/`reload_block_list`)

A list file is modelled as `Option (List PathStr)`: `some lines` when the
read succeeds, `none` when it fails (missing/unreadable file, i.e. the code's
`except Exception` path). -/

/-- `line.strip()`: remove leading and trailing whitespace. -/
def stripStr (s : PathStr) : PathStr :=
  ((s.dropWhile Char.isWhitespace).reverse.dropWhile Char.isWhitespace).reverse

/-- One line of a rule file: kept (stripped) when non-empty and not a
`#` comment. -/
def parseListLine (line : PathStr) : Option PathStr :=
  let entry := stripStr line
  match entry with
  | [] => none
  | '#' :: _ => none
  | _ => some entry

/-- `AppConfig.load_allow_list` (src/procmon/utils/config.py, lines 157-185):
on a successful read, the stripped non-comment non-blank lines; on any
failure, the `except` branch returns the empty list. -/
def load_allow_list (file : Option (List PathStr)) : List PathStr :=
  match file with
  | some lines => lines.filterMap parseListLine
  | none => []

/-- `AppConfig.load_block_list` (src/procmon/utils/config.py, lines 187-215):
identical logic on the block-list file. -/
def load_block_list (file : Option (List PathStr)) : List PathStr :=
  match file with
  | some lines => lines.filterMap parseListLine
  | none => []

/-- `SystemTrayApp.reload_allow_list` (src/procmon/system_tray.py, lines
377-386): load the file and install the result whenever it differs from the
current in-memory list. -/
def reload_allow_list (current : List PathStr) (file : Option (List PathStr)) :
    List PathStr :=
  let new_allow_list := load_allow_list file
  if new_allow_list ≠ current then new_allow_list else current

/-- `SystemTrayApp.reload_block_list` (src/procmon/system_tray.py, lines
388-397). -/
def reload_block_list (current : List PathStr) (file : Option (List PathStr)) :
    List PathStr :=
  let new_block_list := load_block_list file
  if new_block_list ≠ current then new_block_list else current

/-- C2 counterexample: with a non-empty in-memory allow list and a failing
file read, the reload does NOT retain the previous snapshot — it replaces it
with the empty list produced by the loader's `except` branch. -/
theorem C2_reload_failure_counterexample :
    reload_allow_list ["a.exe".toList] none = []
    ∧ reload_allow_list ["a.exe".toList] none ≠ ["a.exe".toList]
    ∧ reload_block_list ["b.exe".toList] none = []
    ∧ reload_block_list ["b.exe".toList] none ≠ ["b.exe".toList] := by
  refine ⟨by decide, by decide, by decide, by decide⟩

/-- C2 amended: when reading a rule-list file fails, the loader yields the
empty list and the reload installs that empty list, so the previous in-memory
snapshot is replaced (it survives only if it was already empty). -/
theorem C2_reload_failure_yields_empty (current : List PathStr) :
    reload_allow_list current none = [] ∧ reload_block_list current none = [] := by
  constructor
  · by_cases h : current = []
    · simp [reload_allow_list, load_allow_list, h]
    · simp [reload_allow_list, load_allow_list, Ne.symm h]
  · by_cases h : current = []
    · simp [reload_block_list, load_block_list, h]
    · simp [reload_block_list, load_block_list, Ne.symm h]

end Procmon

namespace Procmon

/-! ## IconCache (src/procmon/icons/cache.py)

Icons (`QIcon` handles) are opaque: a type parameter.  `datetime.now()`
timestamps are `ℚ` (seconds).  The dict `self.cache` is an insertion-ordered
association list, as in CPython. -/

/-- Python dict assignment `d[k] = v`: overwrite in place (keeping the key's
original position) or append at the end. -/
def dictInsert {ι : Type} (k : PathStr) (v : ι × ℚ) :
    List (PathStr × ι × ℚ) → List (PathStr × ι × ℚ)
  | [] => [(k, v)]
  | e :: es => if e.1 = k then (k, v) :: es else e :: dictInsert k v es

/-- First-match association lookup, `k in d` / `d[k]`. -/
def lookupKey {ι : Type} (k : PathStr) : List (PathStr × ι × ℚ) → Option (ι × ℚ)
  | [] => none
  | e :: es => if e.1 = k then some e.2 else lookupKey k es

/-- Insert `a` into a descending-sorted list after all elements of
greater-or-equal key: one step of a stable descending sort. -/
def insDescBy {α β : Type} [LinearOrder β] (key : α → β) (a : α) :
    List α → List α
  | [] => [a]
  | b :: l => if key a ≤ key b then b :: insDescBy key a l else a :: b :: l

/-- Stable descending sort by key, Python's
`sorted(xs, key=..., reverse=True)`: equal keys keep their original relative
order. -/
def sortDescBy {α β : Type} [LinearOrder β] (key : α → β) (l : List α) : List α :=
  l.foldl (fun acc a => insDescBy key a acc) []

lemma insDescBy_perm {α β : Type} [LinearOrder β] (key : α → β) (a : α)
    (l : List α) : List.Perm (insDescBy key a l) (a :: l) := by
  induction l with
  | nil => exact List.Perm.refl _
  | cons b t ih =>
    simp only [insDescBy]
    split
    · exact (List.Perm.cons b ih).trans (List.Perm.swap a b t)
    · exact List.Perm.refl _

lemma insDescBy_pairwise {α β : Type} [LinearOrder β] (key : α → β) (a : α)
    (l : List α) (h : l.Pairwise (fun x y => key y ≤ key x)) :
    (insDescBy key a l).Pairwise (fun x y => key y ≤ key x) := by
  induction l with
  | nil => simp [insDescBy]
  | cons b t ih =>
    rw [List.pairwise_cons] at h
    simp only [insDescBy]
    split_ifs with hab
    · rw [List.pairwise_cons]
      refine ⟨?_, ih h.2⟩
      intro x hx
      rcases List.mem_cons.mp ((insDescBy_perm key a t).mem_iff.mp hx) with h1 | h1
      · rw [h1]; exact hab
      · exact h.1 x h1
    · have hba : key b ≤ key a := le_of_not_le hab
      rw [List.pairwise_cons]
      refine ⟨?_, List.pairwise_cons.mpr ⟨h.1, h.2⟩⟩
      intro x hx
      rcases List.mem_cons.mp hx with h1 | h1
      · rw [h1]; exact hba
      · exact le_trans (h.1 x h1) hba

lemma sortDescBy_perm {α β : Type} [LinearOrder β] (key : α → β) (l : List α) :
    List.Perm (sortDescBy key l) l := by
  suffices h : ∀ (l acc : List α),
      List.Perm (l.foldl (fun acc a => insDescBy key a acc) acc) (acc ++ l) by
    simpa using h l []
  intro l
  induction l with
  | nil => intro acc; simp
  | cons a t ih =>
    intro acc
    have h1 := ih (insDescBy key a acc)
    have h2 : List.Perm (insDescBy key a acc ++ t) ((a :: acc) ++ t) :=
      (insDescBy_perm key a acc).append_right t
    have h3 : List.Perm ((a :: acc) ++ t) (acc ++ a :: t) := by
      simpa using List.perm_middle.symm
    exact (h1.trans h2).trans h3

lemma sortDescBy_pairwise {α β : Type} [LinearOrder β] (key : α → β) (l : List α) :
    (sortDescBy key l).Pairwise (fun x y => key y ≤ key x) := by
  suffices h : ∀ (l acc : List α),
      acc.Pairwise (fun x y => key y ≤ key x) →
      (l.foldl (fun acc a => insDescBy key a acc) acc).Pairwise
        (fun x y => key y ≤ key x) by
    exact h l [] (by simp)
  intro l
  induction l with
  | nil => intro acc h; simpa using h
  | cons a t ih =>
    intro acc h
    exact ih _ (insDescBy_pairwise key a acc h)

end Procmon

namespace Procmon

/-- The icon cache: bounded, time-limited key-to-icon store
(`IconCache.__init__`, defaults `max_size=1000`, `timeout=300`). -/
structure IconCache (ι : Type) where
  cache : List (PathStr × ι × ℚ)
  max_size : ℕ
  timeout : ℚ

/-- `IconCache.cleanup`: when the entry count exceeds `max_size`, sort by
timestamp descending (stable) and keep only the newest `max_size` entries. -/
def IconCache.cleanup {ι : Type} (c : IconCache ι) : IconCache ι :=
  if c.max_size < c.cache.length then
    { c with cache := (sortDescBy (fun e => e.2.2) c.cache).take c.max_size }
  else c

/-- `IconCache.put`: insert or overwrite (resetting the timestamp), then run
`cleanup`. -/
def IconCache.put {ι : Type} (c : IconCache ι) (k : PathStr) (icon : ι)
    (now : ℚ) : IconCache ι :=
  IconCache.cleanup { c with cache := dictInsert k (icon, now) c.cache }

/-- `IconCache.get`: return the stored icon only when present and younger
than `timeout`; a pure read, it never rewrites the stored timestamp. -/
def IconCache.get {ι : Type} (c : IconCache ι) (k : PathStr) (now : ℚ) :
    Option ι :=
  match lookupKey k c.cache with
  | some (icon, ts) => if now - ts < c.timeout then some icon else none
  | none => none

/-- `IconCache.clear`: empty the cache. -/
def IconCache.clear {ι : Type} (c : IconCache ι) : IconCache ι :=
  { c with cache := [] }

lemma lookupKey_mem {ι : Type} (k : PathStr) :
    ∀ (l : List (PathStr × ι × ℚ)) (v : ι × ℚ),
    lookupKey k l = some v → ∃ e ∈ l, e.1 = k ∧ e.2 = v := by
  intro l
  induction l with
  | nil => intro v h; simp [lookupKey] at h
  | cons e es ih =>
    intro v h
    simp only [lookupKey] at h
    split_ifs at h with he
    · exact ⟨e, by simp, he, by simpa using h⟩
    · obtain ⟨e', he', h1, h2⟩ := ih v h
      exact ⟨e', by simp [he'], h1, h2⟩

lemma dictInsert_keys {ι : Type} (k : PathStr) (v : ι × ℚ) :
    ∀ (l : List (PathStr × ι × ℚ)) (x : PathStr),
    x ∈ (dictInsert k v l).map Prod.fst → x = k ∨ x ∈ l.map Prod.fst := by
  intro l
  induction l with
  | nil => intro x h; simp [dictInsert] at h; simp [h]
  | cons e es ih =>
    intro x h
    simp only [dictInsert] at h
    split_ifs at h with he
    · rw [List.map_cons] at h
      rcases List.mem_cons.mp h with h1 | h1
      · exact Or.inl h1
      · right; rw [List.map_cons]; exact List.mem_cons.mpr (Or.inr h1)
    · rw [List.map_cons] at h
      rcases List.mem_cons.mp h with h1 | h1
      · right; rw [List.map_cons]; exact List.mem_cons.mpr (Or.inl h1)
      · rcases ih x h1 with h2 | h2
        · exact Or.inl h2
        · right; rw [List.map_cons]; exact List.mem_cons.mpr (Or.inr h2)

lemma dictInsert_nodup {ι : Type} (k : PathStr) (v : ι × ℚ) :
    ∀ (l : List (PathStr × ι × ℚ)), (l.map Prod.fst).Nodup →
    ((dictInsert k v l).map Prod.fst).Nodup := by
  intro l
  induction l with
  | nil => intro _; simp [dictInsert]
  | cons e es ih =>
    intro h
    simp only [List.map_cons, List.nodup_cons] at h
    simp only [dictInsert]
    split_ifs with he
    · simp only [List.map_cons, List.nodup_cons]
      exact ⟨by rw [← he]; exact h.1, h.2⟩
    · simp only [List.map_cons, List.nodup_cons]
      refine ⟨?_, ih h.2⟩
      intro hc
      rcases dictInsert_keys k v es e.1 hc with h1 | h1
      · exact he (by rw [h1])
      · exact h.1 h1

lemma dictInsert_value {ι : Type} (k : PathStr) (v : ι × ℚ) :
    ∀ (l : List (PathStr × ι × ℚ)), (l.map Prod.fst).Nodup →
    ∀ e ∈ dictInsert k v l, e.1 = k → e.2 = v := by
  intro l
  induction l with
  | nil => intro _ e he _; simp [dictInsert] at he; simp [he]
  | cons e₀ es ih =>
    intro h e he hek
    simp only [List.map_cons, List.nodup_cons] at h
    simp only [dictInsert] at he
    split_ifs at he with h₀
    · rcases List.mem_cons.mp he with h1 | h1
      · simp [h1]
      · exfalso
        apply h.1
        rw [h₀, ← hek]
        exact List.mem_map_of_mem Prod.fst h1
    · rcases List.mem_cons.mp he with h1 | h1
      · exact absurd (by rw [← h1]; exact hek) h₀
      · exact ih h.2 e h1 hek

/-- Entries of the cleaned-up cache all come from the pre-cleanup cache. -/
lemma cleanup_subset {ι : Type} (c : IconCache ι) :
    ∀ e ∈ (IconCache.cleanup c).cache, e ∈ c.cache := by
  intro e he
  simp only [IconCache.cleanup] at he
  split_ifs at he with hc
  · exact (sortDescBy_perm (fun e => e.2.2) c.cache).mem_iff.mp
      (List.take_subset _ _ he)
  · exact he

end Procmon

namespace Procmon

/-- C7: after any `put` the cache holds at most `max_size` entries; when
eviction triggers, every discarded entry's timestamp is at most every kept
entry's timestamp (the newest `max_size` survive, regardless of timeout);
inserting `max_size + 1` distinct keys leaves exactly the `max_size` most
recently inserted ones. -/
theorem C7_put_bounded_newest_eviction :
    (∀ (ι : Type) (c : IconCache ι) (k : PathStr) (icon : ι) (now : ℚ),
      (c.put k icon now).cache.length ≤ c.max_size)
    ∧ (∀ (ι : Type) (c : IconCache ι) (k : PathStr) (icon : ι) (now : ℚ),
      ∀ e ∈ (c.put k icon now).cache,
      ∀ d ∈ dictInsert k (icon, now) c.cache,
        d ∉ (c.put k icon now).cache → d.2.2 ≤ e.2.2)
    ∧ (((((⟨[], 3, 300⟩ : IconCache ℕ).put "k0".toList 10 0).put "k1".toList 11 1).put
          "k2".toList 12 2).put "k3".toList 13 3).cache
        = [("k3".toList, 13, 3), ("k2".toList, 12, 2), ("k1".toList, 11, 1)] := by
  refine ⟨?_, ?_, by decide⟩
  · intro ι c k icon now
    simp only [IconCache.put, IconCache.cleanup]
    split_ifs with hc
    · simp only [List.length_take]
      exact min_le_left c.max_size _
    · exact le_of_not_lt hc
  · intro ι c k icon now e he d hd hdn
    simp only [IconCache.put, IconCache.cleanup] at he hdn
    split_ifs at he hdn with hc
    · have hds : d ∈ sortDescBy (fun e => e.2.2) (dictInsert k (icon, now) c.cache) :=
        (sortDescBy_perm _ _).mem_iff.mpr hd
      have hpw := sortDescBy_pairwise (fun e => e.2.2)
        (dictInsert k (icon, now) c.cache)
      rw [← List.take_append_drop c.max_size
        (sortDescBy (fun e => e.2.2) (dictInsert k (icon, now) c.cache))] at hds hpw
      obtain ⟨-, -, hcross⟩ := List.pairwise_append.mp hpw
      rcases List.mem_append.mp hds with h1 | h1
      · exact absurd h1 hdn
      · exact hcross e he d h1
    · exact absurd hd hdn

/-- C7 witness: eviction keeps the newer of two entries; the second part of
`C7_put_bounded_newest_eviction` applied at a one-slot cache. -/
theorem C7_put_bounded_newest_eviction_witness : (0 : ℚ) ≤ 5 := by
  exact C7_put_bounded_newest_eviction.2.1 ℕ
    (⟨[("a".toList, 1, 0)], 1, 300⟩ : IconCache ℕ) "b".toList 2 5
    ("b".toList, 2, 5) (by decide) ("a".toList, 1, 0) (by decide) (by decide)

/-- C8: `get` returns the stored icon exactly when the key is present and the
entry is younger than `timeout`; an entry of age at least `timeout` is never
returned; `get` reads the stored timestamp without rewriting it (it is a pure
read in this embedding, as in the source), and a `put` — including an
overwrite of an existing key — is what resets the stored timestamp to the
insertion time. -/
theorem C8_get_fresh_only :
    (∀ (ι : Type) (c : IconCache ι) (k : PathStr) (now : ℚ) (icon : ι),
      c.get k now = some icon ↔
        ∃ ts, lookupKey k c.cache = some (icon, ts) ∧ now - ts < c.timeout)
    ∧ (∀ (ι : Type) (c : IconCache ι) (k : PathStr) (now : ℚ) (icon : ι) (ts : ℚ),
      lookupKey k c.cache = some (icon, ts) → c.timeout ≤ now - ts →
      c.get k now = none)
    ∧ (∀ (ι : Type) (c : IconCache ι) (k : PathStr) (icon : ι) (now : ℚ)
        (icon' : ι) (ts : ℚ),
      (c.cache.map Prod.fst).Nodup →
      lookupKey k (c.put k icon now).cache = some (icon', ts) →
      icon' = icon ∧ ts = now) := by
  refine ⟨?_, ?_, ?_⟩
  · intro ι c k now icon
    simp only [IconCache.get]
    cases hl : lookupKey k c.cache with
    | none => simp
    | some v =>
      obtain ⟨i, ts⟩ := v
      dsimp only
      split_ifs with ht
      · simp only [Option.some.injEq, Prod.mk.injEq]
        constructor
        · intro h; exact ⟨ts, ⟨h, rfl⟩, ht⟩
        · rintro ⟨ts', ⟨h1, -⟩, -⟩; exact h1
      · simp only [Option.some.injEq, Prod.mk.injEq]
        constructor
        · intro h; simp at h
        · rintro ⟨ts', ⟨-, h2⟩, hlt⟩
          rw [← h2] at hlt
          exact absurd hlt ht
  · intro ι c k now icon ts hl ht
    simp only [IconCache.get, hl]
    rw [if_neg (not_lt.mpr ht)]
  · intro ι c k icon now icon' ts hnd hl
    obtain ⟨e, he, hek, hev⟩ := lookupKey_mem k _ _ hl
    have he1 : e ∈ dictInsert k (icon, now) c.cache := cleanup_subset _ e he
    have hv := dictInsert_value k (icon, now) c.cache hnd e he1 hek
    rw [hv] at hev
    injection hev with h1 h2
    exact ⟨h1.symm, h2.symm⟩

/-- C8 witness: the timeout branch and the overwrite-resets-timestamp branch
of `C8_get_fresh_only` at concrete inputs. -/
theorem C8_get_fresh_only_witness :
    ((⟨[("a".toList, 7, 0)], 10, 300⟩ : IconCache ℕ).get "a".toList 300 = none)
    ∧ ((17 : ℕ) = 17 ∧ (5 : ℚ) = 5) := by
  constructor
  · exact C8_get_fresh_only.2.1 ℕ ⟨[("a".toList, 7, 0)], 10, 300⟩
      "a".toList 300 7 0 (by rfl) (by norm_num)
  · exact C8_get_fresh_only.2.2 ℕ ⟨[("a".toList, 7, 0)], 10, 300⟩
      "a".toList 17 5 17 5 (by decide) (by rfl)

end Procmon

namespace Procmon

/-! ## NotificationManager (src/procmon/ui/notification_manager.py)

A `NotificationWidget` is a record of its geometry and interaction flags;
Qt pixel coordinates are `ℤ` (y grows downward), `time.time()` is `ℚ`.
Widget identity (Python object identity) is the index of the widget in the
manager's `notifications` list, so layout passes compute an assignment of
new positions keyed by index and apply it to the list. -/

/-- A notification widget's state as read by the manager. -/
structure Notif where
  x : ℤ
  y : ℤ
  height : ℤ
  full_width : ℤ
  collapsed_width : ℤ
  expanded : Bool
  is_hovered : Bool
  is_pinned : Bool
  context_menu_active : Bool
  visible : Bool
deriving DecidableEq, Repr

/-- The manager state: widget list, pending queue, rate-limiter timestamps,
and the configuration the layout code reads (`self.spacing = 2`,
`margin_right`, `margin_bottom`, `max_notifications`, `rate_limit`, screen
geometry from `QDesktopWidget().screenGeometry()`). -/
structure Mgr where
  notifications : List Notif
  notification_queue : List Notif
  notification_times : List ℚ
  rate_limit : ℕ
  max_notifications : ℤ
  spacing : ℤ
  margin_right : ℤ
  margin_bottom : ℤ
  screenW : ℤ
  screenH : ℤ
deriving DecidableEq

/-- Pair each element with its position. -/
def enumerate {α : Type} : ℕ → List α → List (ℕ × α)
  | _, [] => []
  | k, a :: l => (k, a) :: enumerate (k + 1) l

/-- Position-assignment lookup. -/
def lookupA : ℕ → List (ℕ × ℤ × ℤ) → Option (ℤ × ℤ)
  | _, [] => none
  | i, (j, q) :: l => if j = i then some q else lookupA i l

/-- Apply a move assignment to one indexed widget: `widget.move(x, y)` for
the widgets named in the assignment, identity for the rest. -/
def updFn (asg : List (ℕ × ℤ × ℤ)) (p : ℕ × Notif) : Notif :=
  match lookupA p.1 asg with
  | some q => { p.2 with x := q.1, y := q.2 }
  | none => p.2

/-- Apply a move assignment to the whole widget list. -/
def applyAsg (asg : List (ℕ × ℤ × ℤ)) (l : List Notif) : List Notif :=
  (enumerate 0 l).map (updFn asg)

/-- The visible widgets with their identities,
`[n for n in self.notifications if n.isVisible()]`. -/
def visEnum (l : List Notif) : List (ℕ × Notif) :=
  (enumerate 0 l).filter (fun p => p.2.visible)

/-- Insert keeping ascending order, after existing smaller-or-equal keys:
one step of a stable ascending sort. -/
def insAscBy {α β : Type} [LinearOrder β] (key : α → β) (a : α) :
    List α → List α
  | [] => [a]
  | b :: l => if key b ≤ key a then b :: insAscBy key a l else a :: b :: l

/-- Stable ascending sort by key, Python's `sorted(xs, key=...)`. -/
def sortAscBy {α β : Type} [LinearOrder β] (key : α → β) (l : List α) : List α :=
  l.foldl (fun acc a => insAscBy key a acc) []

/-- The bottom-to-top scan of `NotificationManager.update_positions`
(lines 527-564): walk the visible widgets sorted by y descending, tracking
`expected_y`; hovered/menu-active widgets are skipped (they never move) and
reset the expectation to their own position; a widget that would cross above
a hovered/menu-active widget is left in place; otherwise it is moved to the
right-anchored expected position unless the move is within the 2-pixel
epsilon in both axes.  Returns the scanned widgets with their new states and
the move assignment. -/
def updateLoop (spacing screenW margin_right : ℤ) (specials : List Notif) :
    ℤ → List (ℕ × Notif) → List (ℕ × Notif) × List (ℕ × ℤ × ℤ)
  | _, [] => ([], [])
  | expected_y, (i, n) :: rest =>
    if n.is_hovered || n.context_menu_active then
      let r := updateLoop spacing screenW margin_right specials (n.y - spacing) rest
      ((i, n) :: r.1, r.2)
    else
      let expected_position := expected_y - n.height
      if specials.any (fun s => decide (s.y < n.y) && decide (expected_position < s.y)) then
        let r := updateLoop spacing screenW margin_right specials (n.y - spacing) rest
        ((i, n) :: r.1, r.2)
      else
        let width := if n.expanded || n.is_pinned then n.full_width else n.collapsed_width
        let x_position := screenW - width - margin_right
        if 2 < |n.y - expected_position| ∨ 2 < |n.x - x_position| then
          let n' := { n with x := x_position, y := expected_position }
          let r := updateLoop spacing screenW margin_right specials
            (expected_position - spacing) rest
          ((i, n') :: r.1, (i, x_position, expected_position) :: r.2)
        else
          let r := updateLoop spacing screenW margin_right specials (n.y - spacing) rest
          ((i, n) :: r.1, r.2)

/-- `NotificationManager.update_positions` (lines 493-567): reposition the
visible widgets bottom-to-top starting from the configured bottom anchor. -/
def update_positions (m : Mgr) : Mgr :=
  if m.notifications.isEmpty then m
  else
    let visSorted := sortDescBy (fun p => p.2.y) (visEnum m.notifications)
    if visSorted.isEmpty then m
    else
      let specials := (visSorted.map Prod.snd).filter
        (fun n => n.is_hovered || n.context_menu_active)
      let expected_y := m.screenH - m.margin_bottom
      let r := updateLoop m.spacing m.screenW m.margin_right specials
        expected_y visSorted
      { m with notifications := applyAsg r.2 m.notifications }

/-- An empty space between stacked notifications
(`find_empty_spaces`' dicts `{y, height, size}`). -/
structure Gap where
  y : ℤ
  height : ℤ
  size : ℤ
deriving DecidableEq, Repr

/-- The bottom-up gap scan of `find_empty_spaces` (lines 69-87): stop at the
first hovered/menu-active widget; record a gap whenever a widget sits above
its expected position. -/
def findLoop (spacing : ℤ) : ℤ → List Notif → List Gap
  | _, [] => []
  | expected_y, n :: rest =>
    let current_y := n.y
    let expected_position := expected_y - n.height
    if n.is_hovered || n.context_menu_active then []
    else
      (if expected_position < current_y then
        [⟨expected_position, n.height, current_y - expected_position⟩]
      else [])
      ++ findLoop spacing (current_y - spacing) rest

/-- `NotificationManager.find_empty_spaces` (lines 48-89): scan the visible
widgets bottom-to-top (the reverse of the y-ascending sort) for gaps. -/
def find_empty_spaces (m : Mgr) : List Gap :=
  if m.notifications.isEmpty then []
  else
    let vis := sortAscBy (fun n => n.y) (m.notifications.filter (fun n => n.visible))
    if vis.isEmpty then []
    else findLoop m.spacing (m.screenH - m.margin_bottom) vis.reverse

/-- The candidate search of `fill_empty_space` (lines 100-115): walk the
widgets above the gap, lowest first; abort on a hovered/menu-active widget,
skip pinned ones, and take the first remaining widget. -/
def findCandidate : List (ℕ × Notif) → Option (ℕ × Notif)
  | [] => none
  | (i, n) :: rest =>
    if n.is_hovered || n.context_menu_active then none
    else if n.is_pinned then findCandidate rest
    else some (i, n)

/-- `NotificationManager.fill_empty_space` (lines 91-132): move the lowest
eligible (visible, non-hovered, non-menu, non-pinned) widget above the gap
down into it; returns whether a fill happened. -/
def fill_empty_space (m : Mgr) (gap : Gap) : Mgr × Bool :=
  let above := sortDescBy (fun p => p.2.y)
    ((visEnum m.notifications).filter (fun p => p.2.y < gap.y))
  match findCandidate above with
  | some (i, n) =>
      let width := if n.expanded then n.full_width else n.collapsed_width
      let x_position := m.screenW - width - m.margin_right
      ({ m with notifications := applyAsg [(i, x_position, gap.y)] m.notifications },
        true)
  | none => (m, false)

end Procmon

namespace Procmon

/-- `min(xs, key=lambda n: n.y()).y()` over a possibly-empty widget list. -/
def minY? (l : List Notif) : Option ℤ :=
  l.foldl (fun acc n =>
    match acc with
    | none => some n.y
    | some v => some (min v n.y)) none

/-- `NotificationManager.calculate_available_slots` (lines 378-449): how many
more notifications fit, derived from the height budget above the topmost
hovered/pinned/menu-active widget (if any) or above the current stack.
Python's `//` is floor division, `Int.fdiv`; the `except` fallback (return 0)
is unreachable for the positive heights the widgets have, and `Int.fdiv _ 0 = 0`
coincides with it on a zero divisor. -/
def calculate_available_slots (m : Mgr) : ℤ :=
  let top_margin : ℤ := 10
  let vis := m.notifications.filter (fun n => n.visible)
  match vis with
  | [] => m.max_notifications
  | v0 :: _ =>
    let notification_height := v0.height + m.spacing
    let max_allowed_height := notification_height * m.max_notifications
    let max_y_position :=
      max (m.screenH - m.margin_bottom - max_allowed_height) top_margin
    let specials := vis.filter
      (fun n => n.is_hovered || n.is_pinned || n.context_menu_active)
    match minY? specials with
    | some highest_special_y =>
        let available_height := max 0 (highest_special_y - max_y_position)
        let notifications_above :=
          (vis.filter (fun n => n.y < highest_special_y)).length
        let height_used_above := (notifications_above : ℤ) * notification_height
        let remaining_height := max 0 (available_height - height_used_above)
        Int.fdiv remaining_height notification_height
    | none =>
        let lowest_y := m.screenH - m.margin_bottom
        let highest_y := (minY? vis).getD lowest_y
        let available_height := max 0 (highest_y - max_y_position)
        Int.fdiv available_height notification_height

/-- `NotificationManager.show_notification` (lines 231-319), the state part:
append the widget, place it right-anchored directly above the topmost
visible widget (or at the bottom anchor), clamped to 10 px from the top,
and show it.  (Raising, fade timers and the deferred `update_positions`
are display concerns outside this state model.) -/
def show_notification (m : Mgr) (notification : Notif) : Mgr × Notif :=
  let width := if notification.expanded then notification.full_width
    else notification.collapsed_width
  let x_position := m.screenW - width - m.margin_right
  let visible_others := m.notifications.filter (fun n => n.visible)
  let y0 : ℤ :=
    match minY? visible_others with
    | some highest_y => highest_y - m.spacing - notification.height
    | none => m.screenH - m.margin_bottom - notification.height
  let y_position := if y0 < 10 then 10 else y0
  let shown := { notification with x := x_position, y := y_position, visible := true }
  ({ m with notifications := m.notifications ++ [shown] }, shown)

/-- What `add_notification` did with a submission. -/
inductive Outcome
  | rejected
  | queued
  | shown
deriving DecidableEq, Repr

/-- `NotificationManager.add_notification` (lines 321-376): prune the
sliding one-second window of admission timestamps; reject outright when the
window already holds `rate_limit` timestamps (returning `None` and appending
nothing); otherwise record the admission time and either queue the new
widget (no available slot) or show it immediately. -/
def add_notification (m : Mgr) (notification : Notif) (now : ℚ) :
    Option Notif × Outcome × Mgr :=
  let notification_times := m.notification_times.filter (fun t => now - t < 1)
  if m.rate_limit ≤ notification_times.length then
    (none, Outcome.rejected, { m with notification_times := notification_times })
  else
    let m1 := { m with notification_times := notification_times ++ [now] }
    let available_slots := calculate_available_slots m1
    if available_slots ≤ 0 then
      (some notification, Outcome.queued,
        { m1 with notification_queue := m1.notification_queue ++ [notification] })
    else
      let r := show_notification m1 notification
      (some r.2, Outcome.shown, r.1)

/-- A sequence of submissions, collecting each outcome. -/
def submitAll (m : Mgr) : List (Notif × ℚ) → Mgr × List Outcome
  | [] => (m, [])
  | (n, t) :: rest =>
      let r := add_notification m n t
      let s := submitAll r.2.2 rest
      (s.1, r.2.1 :: s.2)

end Procmon


namespace Procmon

/-- An idle collapsed notification widget template (80 px tall). -/
def exNotif : Notif := ⟨0, 0, 80, 300, 60, false, false, false, false, false⟩

/-- A manager with default configuration (`rate_limit = 10`,
`max_notifications = 30`, `spacing = 2`, margins 4/50) on a 1920 x 2000
screen, no widgets yet. -/
def exMgr : Mgr := ⟨[], [], [], 10, 30, 2, 4, 50, 1920, 2000⟩

/-- A window of `k` admissions all at time 0 is untouched by pruning at
time 0. -/
lemma filter_time_replicate (k : ℕ) :
    (List.replicate k (0 : ℚ)).filter (fun t => (0 : ℚ) - t < 1)
      = List.replicate k 0 := by
  apply List.filter_eq_self.mpr
  intro a ha
  rw [List.eq_of_mem_replicate ha]
  norm_num

end Procmon

namespace Procmon

/-- One submission at time 0 against a window of `k` zero timestamps:
rejected exactly when the budget is exhausted; otherwise the window grows
by one and the configuration is untouched. -/
lemma add_notification_zero_step (m : Mgr) (k : ℕ)
    (hm : m.notification_times = List.replicate k (0 : ℚ)) :
    (m.rate_limit ≤ k →
      add_notification m exNotif 0 =
        (none, Outcome.rejected,
          { m with notification_times := List.replicate k (0 : ℚ) }))
    ∧ (k < m.rate_limit →
      (add_notification m exNotif 0).2.1 ≠ Outcome.rejected
      ∧ (add_notification m exNotif 0).2.2.notification_times
          = List.replicate (k + 1) (0 : ℚ)
      ∧ (add_notification m exNotif 0).2.2.rate_limit = m.rate_limit) := by
  have hfilter : m.notification_times.filter (fun t => (0 : ℚ) - t < 1)
      = List.replicate k 0 := by rw [hm, filter_time_replicate]
  constructor
  · intro hk
    simp only [add_notification]
    rw [if_pos (by rw [hfilter, List.length_replicate]; exact hk)]
    rw [hfilter]
  · intro hk
    have hcond : ¬ (m.rate_limit ≤
        (m.notification_times.filter (fun t => (0 : ℚ) - t < 1)).length) := by
      rw [hfilter, List.length_replicate]; omega
    simp only [add_notification]
    rw [if_neg hcond]
    split_ifs with hslots
    · refine ⟨fun h => Outcome.noConfusion h, ?_, rfl⟩
      rw [hfilter]
      exact (List.replicate_succ' k 0).symm
    · refine ⟨fun h => Outcome.noConfusion h, ?_, rfl⟩
      dsimp only [show_notification]
      rw [hfilter]
      exact (List.replicate_succ' k 0).symm

end Procmon

namespace Procmon

/-- A run of `j` submissions at time 0 against a window of `k` zero
timestamps: exactly the submissions beyond the remaining `rate_limit − k`
budget are rejected; the rest are admitted or queued. -/
lemma submitAll_zero_spec :
    ∀ (j k : ℕ) (m : Mgr), m.notification_times = List.replicate k (0 : ℚ) →
    ((submitAll m (List.replicate j (exNotif, (0 : ℚ)))).2.count Outcome.rejected
        = j - min j (m.rate_limit - k))
    ∧ (submitAll m (List.replicate j (exNotif, (0 : ℚ)))).2.length = j
    ∧ ((submitAll m (List.replicate j (exNotif, (0 : ℚ)))).2.filter
        (fun o => o ≠ Outcome.rejected)).length = min j (m.rate_limit - k) := by
  intro j
  induction j with
  | zero => intro k m _; simp [submitAll]
  | succ j ih =>
    intro k m hm
    rw [List.replicate_succ]
    simp only [submitAll]
    by_cases hk : m.rate_limit ≤ k
    · rw [(add_notification_zero_step m k hm).1 hk]
      dsimp only
      obtain ⟨ih1, ih2, ih3⟩ := ih k
        { m with notification_times := List.replicate k (0 : ℚ) } rfl
      dsimp only at ih1 ih2 ih3
      refine ⟨?_, ?_, ?_⟩
      · rw [List.count_cons, ih1,
          if_pos (show (Outcome.rejected == Outcome.rejected) = true from rfl)]
        omega
      · rw [List.length_cons, ih2]
      · rw [List.filter_cons, if_neg (by simp), ih3]
        omega
    · have hk' : k < m.rate_limit := by omega
      obtain ⟨ho, htimes, hrate⟩ := (add_notification_zero_step m k hm).2 hk'
      obtain ⟨ih1, ih2, ih3⟩ := ih (k + 1) (add_notification m exNotif 0).2.2 htimes
      rw [hrate] at ih1 ih3
      refine ⟨?_, ?_, ?_⟩
      · have hb : ((add_notification m exNotif 0).2.1 == Outcome.rejected) = false :=
          beq_eq_false_iff_ne.mpr ho
        rw [List.count_cons, ih1, if_neg (by simp [hb])]
        omega
      · rw [List.length_cons, ih2]
      · have hb : (decide ((add_notification m exNotif 0).2.1 ≠ Outcome.rejected))
            = true := decide_eq_true ho
        rw [List.filter_cons, if_pos hb, List.length_cons, ih3]
        omega

end Procmon

namespace Procmon

/-- C6: a submission is rejected exactly when admitting it would push the
count of admissions inside the trailing one-second window past `rate_limit`;
a rejected submission is not queued, adds no widget and returns `None`;
and 11 submissions within one second under `rate_limit = 10` yield exactly
1 rejection and 10 admitted-or-queued records. -/
theorem C6_rate_limit_rejects_exactly :
    (∀ (m : Mgr) (n : Notif) (now : ℚ),
      (add_notification m n now).2.1 = Outcome.rejected ↔
        m.rate_limit <
          (m.notification_times.filter (fun t => now - t < 1)).length + 1)
    ∧ (∀ (m : Mgr) (n : Notif) (now : ℚ),
      (add_notification m n now).2.1 = Outcome.rejected →
      (add_notification m n now).2.2.notification_queue = m.notification_queue
      ∧ (add_notification m n now).2.2.notifications = m.notifications
      ∧ (add_notification m n now).1 = none)
    ∧ (submitAll exMgr (List.replicate 11 (exNotif, (0 : ℚ)))).2.count
        Outcome.rejected = 1
    ∧ (submitAll exMgr (List.replicate 11 (exNotif, (0 : ℚ)))).2.length = 11
    ∧ ((submitAll exMgr (List.replicate 11 (exNotif, (0 : ℚ)))).2.filter
        (fun o => o ≠ Outcome.rejected)).length = 10 := by
  have hspec := submitAll_zero_spec 11 0 exMgr rfl
  refine ⟨?_, ?_, by rw [hspec.1]; rfl, by rw [hspec.2.1], by rw [hspec.2.2]; rfl⟩
  · intro m n now
    simp only [add_notification]
    split_ifs with h1 h2
    · constructor
      · intro _; omega
      · intro _; rfl
    · constructor
      · intro hc
        simp at hc
      · intro hc
        exact absurd (Nat.lt_succ_iff.mp hc) h1
    · constructor
      · intro hc
        simp at hc
      · intro hc
        exact absurd (Nat.lt_succ_iff.mp hc) h1
  · intro m n now h
    simp only [add_notification] at h ⊢
    split_ifs at h ⊢ with h1
    exact ⟨rfl, rfl, rfl⟩

/-- C6 witness: the reject-leaves-queue-untouched part of
`C6_rate_limit_rejects_exactly` at a manager whose window is saturated with
ten timestamps. -/
theorem C6_rate_limit_rejects_exactly_witness :
    (add_notification { exMgr with notification_times := List.replicate 10 0 }
      exNotif 0).2.2.notification_queue = [] := by
  have hrej : (add_notification
      { exMgr with notification_times := List.replicate 10 0 } exNotif 0).2.1
      = Outcome.rejected := by
    apply (C6_rate_limit_rejects_exactly.1
      { exMgr with notification_times := List.replicate 10 0 } exNotif 0).mpr
    rw [show ({ exMgr with notification_times := List.replicate 10 0 } : Mgr).notification_times
        = List.replicate 10 (0 : ℚ) from rfl]
    rw [filter_time_replicate]
    simp [exMgr]
  exact (C6_rate_limit_rejects_exactly.2.1
    { exMgr with notification_times := List.replicate 10 0 } exNotif 0 hrej).1

end Procmon

namespace Procmon

/-- A manager whose admission window holds ten fresh timestamps and one
stale one. -/
def exMgrStale : Mgr :=
  { exMgr with notification_times := (-1 : ℚ) :: List.replicate 10 0 }

/-- Pruning the stale manager's window at time 0 drops exactly the stale
timestamp. -/
lemma exMgrStale_filter :
    exMgrStale.notification_times.filter (fun t => (0 : ℚ) - t < 1)
      = List.replicate 10 0 := by
  show ((-1 : ℚ) :: List.replicate 10 0).filter (fun t => (0 : ℚ) - t < 1)
    = List.replicate 10 0
  rw [List.filter_cons]
  rw [if_neg (by norm_num)]
  exact filter_time_replicate 10

lemma exMgrStale_rejects :
    exMgrStale.rate_limit ≤
      (exMgrStale.notification_times.filter (fun t => (0 : ℚ) - t < 1)).length := by
  rw [exMgrStale_filter, List.length_replicate]
  exact le_refl 10

/-- C10 counterexample: a rejected submission does NOT leave the scheduler
state completely unchanged — the call that rejects also prunes the stale
timestamp out of `notification_times`. -/
theorem C10_rejection_state_counterexample :
    (add_notification exMgrStale exNotif 0).2.1 = Outcome.rejected
    ∧ (add_notification exMgrStale exNotif 0).2.2.notification_times
        ≠ exMgrStale.notification_times := by
  constructor
  · simp only [add_notification]
    rw [if_pos exMgrStale_rejects]
  · simp only [add_notification]
    rw [if_pos exMgrStale_rejects]
    dsimp only
    rw [exMgrStale_filter]
    intro hc
    exact absurd (congrArg List.length hc) (by decide)

/-- C10 amended: a rejected submission returns `None`, creates no widget and
appends nothing to the visible list, the queue, or the admission window; the
only state change is that timestamps older than one second are pruned from
the window, and that pruning never changes a later pruning's result (so it
affects no future admission decision). -/
theorem C10_rejection_only_prunes :
    (∀ (m : Mgr) (n : Notif) (now : ℚ),
      m.rate_limit ≤ (m.notification_times.filter (fun t => now - t < 1)).length →
      add_notification m n now =
        (none, Outcome.rejected,
          { m with notification_times :=
              m.notification_times.filter (fun t => now - t < 1) }))
    ∧ (∀ (ts : List ℚ) (now now' : ℚ), now ≤ now' →
      (ts.filter (fun t => now - t < 1)).filter (fun t => now' - t < 1)
        = ts.filter (fun t => now' - t < 1)) := by
  constructor
  · intro m n now h
    simp only [add_notification]
    rw [if_pos h]
  · intro ts now now' hle
    rw [List.filter_filter]
    apply List.filter_congr
    intro t _
    by_cases hc : now' - t < 1
    · have hc2 : now - t < 1 := by linarith
      simp [hc, hc2]
    · simp [hc]

/-- C10 witness: `C10_rejection_only_prunes` applied at the stale-window
manager and at concrete pruning times. -/
theorem C10_rejection_only_prunes_witness :
    (add_notification exMgrStale exNotif 0).2.2.notification_times
      = List.replicate 10 0
    ∧ (([-5, 0] : List ℚ).filter (fun t => (0 : ℚ) - t < 1)).filter
        (fun t => (1 : ℚ) - t < 1)
      = ([-5, 0] : List ℚ).filter (fun t => (1 : ℚ) - t < 1) := by
  constructor
  · rw [C10_rejection_only_prunes.1 exMgrStale exNotif 0 exMgrStale_rejects]
    exact exMgrStale_filter
  · exact C10_rejection_only_prunes.2 [-5, 0] 0 1 (by norm_num)

end Procmon

namespace Procmon

lemma enumerate_get? {α : Type} :
    ∀ (l : List α) (k i : ℕ),
    (enumerate k l).get? i = (l.get? i).map (fun a => (k + i, a)) := by
  intro l
  induction l with
  | nil => intro k i; simp [enumerate]
  | cons a t ih =>
    intro k i
    cases i with
    | zero => simp [enumerate]
    | succ i =>
      simp only [enumerate, List.get?_cons_succ, ih (k + 1) i]
      cases t.get? i <;> simp
      omega

lemma mem_enumerate_get? {α : Type} (l : List α) (i : ℕ) (a : α)
    (h : (i, a) ∈ enumerate 0 l) : l.get? i = some a := by
  obtain ⟨j, hj⟩ := List.get?_of_mem h
  rw [enumerate_get? l 0 j] at hj
  cases hl : l.get? j with
  | none => rw [hl] at hj; simp at hj
  | some b =>
    rw [hl] at hj
    simp only [Option.map_some'] at hj
    injection hj with h1
    injection h1 with h1 h1'
    rw [Nat.zero_add] at h1
    rw [← h1, hl, h1']

lemma applyAsg_get? (asg : List (ℕ × ℤ × ℤ)) (l : List Notif) (i : ℕ) :
    (applyAsg asg l).get? i = (l.get? i).map (fun n => updFn asg (i, n)) := by
  simp only [applyAsg, List.get?_map, enumerate_get? l 0 i]
  cases l.get? i with
  | none => rfl
  | some a => simp

lemma lookupA_eq_none (i : ℕ) :
    ∀ (asg : List (ℕ × ℤ × ℤ)), (∀ p ∈ asg, p.1 ≠ i) → lookupA i asg = none := by
  intro asg
  induction asg with
  | nil => intro _; rfl
  | cons p t ih =>
    intro h
    obtain ⟨j, q⟩ := p
    simp only [lookupA]
    rw [if_neg (h (j, q) (by simp))]
    exact ih (fun p hp => h p (by simp [hp]))

/-- Every move the reposition scan emits targets a widget that is neither
hovered nor menu-active. -/
lemma updateLoop_asg_indices (spacing screenW margin_right : ℤ)
    (specials : List Notif) :
    ∀ (expY : ℤ) (S : List (ℕ × Notif)),
    ∀ p ∈ (updateLoop spacing screenW margin_right specials expY S).2,
    ∃ nn, (p.1, nn) ∈ S ∧ (nn.is_hovered || nn.context_menu_active) = false := by
  intro expY S
  induction S generalizing expY with
  | nil => intro p hp; simp [updateLoop] at hp
  | cons e rest ih =>
    intro p hp
    obtain ⟨i, n⟩ := e
    simp only [updateLoop] at hp
    split_ifs at hp with h1 h2 h3 h4 h5
    all_goals try dsimp only at hp
    · obtain ⟨nn, hmem, hnn⟩ := ih _ p hp
      exact ⟨nn, by simp [hmem], hnn⟩
    · obtain ⟨nn, hmem, hnn⟩ := ih _ p hp
      exact ⟨nn, by simp [hmem], hnn⟩
    · rcases List.mem_cons.mp hp with h6 | h6
      · refine ⟨n, by simp [h6], by simpa using h1⟩
      · obtain ⟨nn, hmem, hnn⟩ := ih _ p h6
        exact ⟨nn, by simp [hmem], hnn⟩
    · obtain ⟨nn, hmem, hnn⟩ := ih _ p hp
      exact ⟨nn, by simp [hmem], hnn⟩
    · rcases List.mem_cons.mp hp with h6 | h6
      · refine ⟨n, by simp [h6], by simpa using h1⟩
      · obtain ⟨nn, hmem, hnn⟩ := ih _ p h6
        exact ⟨nn, by simp [hmem], hnn⟩
    · obtain ⟨nn, hmem, hnn⟩ := ih _ p hp
      exact ⟨nn, by simp [hmem], hnn⟩

lemma findCandidate_spec :
    ∀ (l : List (ℕ × Notif)) (i : ℕ) (n : Notif),
    findCandidate l = some (i, n) →
    (i, n) ∈ l ∧ n.is_hovered = false ∧ n.context_menu_active = false
      ∧ n.is_pinned = false := by
  intro l
  induction l with
  | nil => intro i n h; simp [findCandidate] at h
  | cons e rest ih =>
    intro i n h
    obtain ⟨j, w⟩ := e
    simp only [findCandidate] at h
    split_ifs at h with h1 h2
    · obtain ⟨hmem, hrest⟩ := ih i n h
      exact ⟨by simp [hmem], hrest⟩
    · injection h with h3
      injection h3 with h4 h5
      subst h4; subst h5
      simp at h1
      exact ⟨by simp, h1.1, h1.2, by simpa using h2⟩

end Procmon

namespace Procmon

/-- Members of the sorted visible list come from the widget list with their
true indices. -/
lemma mem_sorted_visEnum (l : List Notif) (p : ℕ × Notif)
    (h : p ∈ sortDescBy (fun q => q.2.y) (visEnum l)) :
    l.get? p.1 = some p.2 ∧ p.2.visible = true := by
  have h1 : p ∈ visEnum l := (sortDescBy_perm _ _).mem_iff.mp h
  have h2 := List.mem_filter.mp h1
  exact ⟨mem_enumerate_get? l p.1 p.2 (by obtain ⟨i, n⟩ := p; exact h2.1), h2.2⟩

/-- C1 counterexample state: one visible pinned (not hovered, no menu)
widget sitting away from the bottom anchor. -/
def exMgrPinned : Mgr :=
  { exMgr with
      screenW := 400, screenH := 200,
      notifications := [⟨96, 50, 30, 300, 60, false, false, true, false, true⟩] }

/-- C1 counterexample: a pinned (non-hovered, non-menu) record IS moved by
the reposition pass `update_positions` — from y = 50 to the expected
position 120 — so "pinned" does not freeze a record's y-position in that
pass. -/
theorem C1_pinned_moved_counterexample :
    (exMgrPinned.notifications.get? 0).map Notif.is_pinned = some true
    ∧ (exMgrPinned.notifications.get? 0).map Notif.y = some 50
    ∧ ((update_positions exMgrPinned).notifications.get? 0).map Notif.y
        = some 120 := by
  refine ⟨rfl, rfl, by decide⟩

/-- C1 amended: a hovered or menu-active record's y-position is never
changed by the reposition pass `update_positions`, and a hovered,
menu-active or pinned record is never moved by the gap-filling pass
`fill_empty_space` (`find_empty_spaces` itself moves nothing — it only
reports gaps); a pinned record that is neither hovered nor menu-active can,
however, be repositioned by `update_positions`. -/
theorem C1_flagged_records_unmoved :
    (∀ (m : Mgr) (i : ℕ) (n : Notif),
      m.notifications.get? i = some n →
      (n.is_hovered || n.context_menu_active) = true →
      (update_positions m).notifications.get? i = some n)
    ∧ (∀ (m : Mgr) (gap : Gap) (i : ℕ) (n : Notif),
      m.notifications.get? i = some n →
      (n.is_hovered || n.context_menu_active || n.is_pinned) = true →
      (fill_empty_space m gap).1.notifications.get? i = some n) := by
  constructor
  · intro m i n hget hflag
    simp only [update_positions]
    split_ifs with h1 h2
    · exact hget
    · exact hget
    · rw [applyAsg_get?, hget]
      simp only [Option.map_some']
      have hnone : lookupA i (updateLoop m.spacing m.screenW m.margin_right
          ((sortDescBy (fun p => p.2.y) (visEnum m.notifications)).map Prod.snd |>.filter
            (fun n => n.is_hovered || n.context_menu_active))
          (m.screenH - m.margin_bottom)
          (sortDescBy (fun p => p.2.y) (visEnum m.notifications))).2 = none := by
        apply lookupA_eq_none
        intro p hp hpi
        obtain ⟨nn, hmem, hnn⟩ := updateLoop_asg_indices _ _ _ _ _ _ p hp
        rw [hpi] at hmem
        have hg := (mem_sorted_visEnum m.notifications (i, nn) hmem).1
        rw [hget] at hg
        injection hg with hsame
        have hsame' : n = nn := hsame
        rw [hsame'] at hflag
        rw [hflag] at hnn
        simp at hnn
      rw [updFn, hnone]
  · intro m gap i n hget hflag
    simp only [fill_empty_space]
    cases hfc : findCandidate (sortDescBy (fun p => p.2.y)
        ((visEnum m.notifications).filter (fun p => p.2.y < gap.y))) with
    | none => exact hget
    | some c =>
      obtain ⟨j, w⟩ := c
      obtain ⟨hmem, hh, hc, hpin⟩ := findCandidate_spec _ j w hfc
      dsimp only
      rw [applyAsg_get?, hget]
      simp only [Option.map_some']
      have hji : j ≠ i := by
        intro hji
        rw [hji] at hmem
        have h3 : (i, w) ∈ sortDescBy (fun p => p.2.y) (visEnum m.notifications) →
          True := fun _ => trivial
        have h4 : (i, w) ∈ (visEnum m.notifications).filter
            (fun p => p.2.y < gap.y) :=
          (sortDescBy_perm _ _).mem_iff.mp hmem
        have h5 : (i, w) ∈ visEnum m.notifications := (List.mem_filter.mp h4).1
        have h6 := mem_enumerate_get? m.notifications i w
          (List.mem_filter.mp h5).1
        rw [hget] at h6
        injection h6 with hsame
        have hsame' : n = w := hsame
        rw [hsame'] at hflag
        rw [hh, hc, hpin] at hflag
        simp at hflag
      rw [updFn]
      have : lookupA i [(j, m.screenW - (if w.expanded then w.full_width
          else w.collapsed_width) - m.margin_right, gap.y)] = none := by
        simp only [lookupA]
        rw [if_neg hji]
      rw [this]

end Procmon

namespace Procmon

/-- A visible hovered widget used in the C1 witness. -/
def exNotifHovered : Notif := ⟨96, 50, 30, 300, 60, false, true, false, false, true⟩

/-- C1 witness: `C1_flagged_records_unmoved` applied to a hovered record in
both passes — its state (y-position included) is untouched. -/
theorem C1_flagged_records_unmoved_witness :
    (update_positions
        { exMgr with notifications := [exNotifHovered] }).notifications.get? 0
      = some exNotifHovered
    ∧ (fill_empty_space { exMgr with notifications := [exNotifHovered] }
        ⟨120, 30, 40⟩).1.notifications.get? 0 = some exNotifHovered := by
  constructor
  · exact C1_flagged_records_unmoved.1
      { exMgr with notifications := [exNotifHovered] } 0 exNotifHovered rfl rfl
  · exact C1_flagged_records_unmoved.2
      { exMgr with notifications := [exNotifHovered] } ⟨120, 30, 40⟩ 0
      exNotifHovered rfl rfl

end Procmon

namespace Procmon

lemma enumerate_length {α : Type} : ∀ (l : List α) (k : ℕ),
    (enumerate k l).length = l.length := by
  intro l
  induction l with
  | nil => intro k; rfl
  | cons a t ih => intro k; simp [enumerate, ih]

lemma enumerate_map_snd {α : Type} : ∀ (l : List α) (k : ℕ),
    (enumerate k l).map Prod.snd = l := by
  intro l
  induction l with
  | nil => intro k; rfl
  | cons a t ih => intro k; simp [enumerate, ih]

lemma enumerate_map_fst {α : Type} : ∀ (l : List α) (k : ℕ),
    (enumerate k l).map Prod.fst = List.range' k l.length := by
  intro l
  induction l with
  | nil => intro k; rfl
  | cons a t ih => intro k; simp [enumerate, ih, List.range'_succ]

lemma enumerate_map {α β : Type} (f : α → β) : ∀ (l : List α) (k : ℕ),
    enumerate k (l.map f) = (enumerate k l).map (fun p => (p.1, f p.2)) := by
  intro l
  induction l with
  | nil => intro k; rfl
  | cons a t ih => intro k; simp [enumerate, ih]

lemma enumerate_enumerate {α : Type} : ∀ (l : List α) (k : ℕ),
    enumerate k (enumerate k l) = (enumerate k l).map (fun p => (p.1, p)) := by
  intro l
  induction l with
  | nil => intro k; rfl
  | cons a t ih => intro k; simp [enumerate, ih]

/-- A move assignment only changes a widget's x/y; every other field — the
interaction flags, visibility, sizes — is untouched. -/
lemma updFn_fields (asg : List (ℕ × ℤ × ℤ)) (p : ℕ × Notif) :
    (updFn asg p).visible = p.2.visible
    ∧ (updFn asg p).is_hovered = p.2.is_hovered
    ∧ (updFn asg p).context_menu_active = p.2.context_menu_active
    ∧ (updFn asg p).is_pinned = p.2.is_pinned
    ∧ (updFn asg p).expanded = p.2.expanded
    ∧ (updFn asg p).height = p.2.height
    ∧ (updFn asg p).full_width = p.2.full_width
    ∧ (updFn asg p).collapsed_width = p.2.collapsed_width := by
  unfold updFn
  cases lookupA p.1 asg <;> simp

lemma applyAsg_nil (l : List Notif) : applyAsg [] l = l := by
  unfold applyAsg
  have h : ∀ p ∈ enumerate 0 l, updFn [] p = Prod.snd p := by
    intro p _; rfl
  rw [List.map_congr_left h, enumerate_map_snd]

lemma applyAsg_length (asg : List (ℕ × ℤ × ℤ)) (l : List Notif) :
    (applyAsg asg l).length = l.length := by
  unfold applyAsg
  rw [List.length_map, enumerate_length]

lemma updateLoop_fst_length (spacing screenW margin_right : ℤ)
    (specials : List Notif) :
    ∀ (expY : ℤ) (S : List (ℕ × Notif)),
    (updateLoop spacing screenW margin_right specials expY S).1.length
      = S.length := by
  intro expY S
  induction S generalizing expY with
  | nil => rfl
  | cons e rest ih =>
    obtain ⟨i, n⟩ := e
    simp only [updateLoop]
    split_ifs <;> simp [ih]

/-- A sorted (non-strictly descending) permutation of a strictly descending
list is that list: sorted order is unique once keys are distinct. -/
lemma sorted_perm_unique {α β : Type} [LinearOrder β] (key : α → β) :
    ∀ (s l : List α), List.Perm l s →
    s.Pairwise (fun a b => key b < key a) →
    l.Pairwise (fun a b => key b ≤ key a) → l = s := by
  intro s
  induction s with
  | nil =>
    intro l hperm _ _
    exact List.Perm.eq_nil hperm
  | cons a s' ih =>
    intro l hperm hs hl
    cases l with
    | nil =>
      exact absurd (List.Perm.eq_nil hperm.symm) (by simp)
    | cons x t =>
      have hx : x = a := by
        by_contra hne
        have hx1 : x ∈ a :: s' := hperm.mem_iff.mp (by simp)
        have hx2 : x ∈ s' := by
          rcases List.mem_cons.mp hx1 with h | h
          · exact absurd h hne
          · exact h
        have hxa : key x < key a := (List.pairwise_cons.mp hs).1 x hx2
        have ha1 : a ∈ x :: t := hperm.mem_iff.mpr (by simp)
        have ha2 : a ∈ t := by
          rcases List.mem_cons.mp ha1 with h | h
          · exact absurd h.symm hne
          · exact h
        have hax : key a ≤ key x := (List.pairwise_cons.mp hl).1 a ha2
        exact absurd hxa (not_lt.mpr hax)
      subst hx
      have hperm' : List.Perm t s' := hperm.cons_inv
      rw [ih t hperm' (List.pairwise_cons.mp hs).2 (List.pairwise_cons.mp hl).2]

end Procmon

namespace Procmon

/-- Applying a move assignment commutes with taking the visible indexed
widgets: moves change no visibility. -/
lemma visEnum_applyAsg (asg : List (ℕ × ℤ × ℤ)) (l : List Notif) :
    visEnum (applyAsg asg l) = (visEnum l).map (fun p => (p.1, updFn asg p)) := by
  unfold visEnum applyAsg
  rw [enumerate_map (updFn asg) (enumerate 0 l) 0, enumerate_enumerate,
    List.map_map]
  rw [List.filter_map]
  congr 1
  apply List.filter_congr
  intro p _
  exact (updFn_fields asg p).1

/-- The indices of the sorted visible list are distinct. -/
lemma sorted_visEnum_nodup (l : List Notif) :
    ((sortDescBy (fun p => p.2.y) (visEnum l)).map Prod.fst).Nodup := by
  have h1 : ((enumerate 0 l).map Prod.fst).Nodup := by
    rw [enumerate_map_fst]
    apply List.nodup_range'
    exact Nat.zero_lt_one
  have h2 : ((visEnum l).map Prod.fst).Nodup :=
    ((List.filter_sublist _).map Prod.fst).nodup h1
  exact ((sortDescBy_perm (fun p => p.2.y) (visEnum l)).map Prod.fst).nodup_iff.mpr h2

/-- The reposition scan's output widgets are exactly the scanned widgets
with the scan's own move assignment applied. -/
lemma updateLoop_fst_eq_map (spacing screenW margin_right : ℤ)
    (specials : List Notif) :
    ∀ (expY : ℤ) (S : List (ℕ × Notif)), (S.map Prod.fst).Nodup →
    (updateLoop spacing screenW margin_right specials expY S).1
      = S.map (fun p =>
          (p.1, updFn (updateLoop spacing screenW margin_right specials expY S).2 p)) := by
  intro expY S
  induction S generalizing expY with
  | nil => intro _; rfl
  | cons e rest ih =>
    intro hnd
    obtain ⟨i, n⟩ := e
    rw [List.map_cons, List.nodup_cons] at hnd
    have hsub : ∀ asg : List (ℕ × ℤ × ℤ), (∀ p ∈ asg, p.1 ∈ rest.map Prod.fst) →
        lookupA i asg = none := by
      intro asg hasg
      apply lookupA_eq_none
      intro p hp hpi
      exact hnd.1 (hpi ▸ hasg p hp)
    have hrest_asg : ∀ expY' : ℤ, ∀ p ∈ (updateLoop spacing screenW margin_right
        specials expY' rest).2, p.1 ∈ rest.map Prod.fst := by
      intro expY' p hp
      obtain ⟨nn, hmem, -⟩ := updateLoop_asg_indices _ _ _ _ _ _ p hp
      exact List.mem_map_of_mem Prod.fst hmem
    simp only [updateLoop]
    split_ifs with h1 h2 h3 h4 h5
    · dsimp only
      rw [List.map_cons, ih _ hnd.2]
      congr 1
      simp [updFn, hsub _ (hrest_asg _)]
    · dsimp only
      rw [List.map_cons, ih _ hnd.2]
      congr 1
      simp [updFn, hsub _ (hrest_asg _)]
    · dsimp only
      rw [List.map_cons, ih _ hnd.2]
      congr 1
      · simp [updFn, lookupA]
      · apply List.map_congr_left
        intro p hp
        have hpi : p.1 ≠ i := by
          intro hc
          exact hnd.1
            (hc ▸ (List.mem_map_of_mem Prod.fst hp : p.1 ∈ rest.map Prod.fst))
        simp only [updFn, lookupA]
        rw [if_neg (fun hc => hpi hc.symm)]
    · dsimp only
      rw [List.map_cons, ih _ hnd.2]
      congr 1
      simp [updFn, hsub _ (hrest_asg _)]
    · dsimp only
      rw [List.map_cons, ih _ hnd.2]
      congr 1
      · simp [updFn, lookupA]
      · apply List.map_congr_left
        intro p hp
        have hpi : p.1 ≠ i := by
          intro hc
          exact hnd.1
            (hc ▸ (List.mem_map_of_mem Prod.fst hp : p.1 ∈ rest.map Prod.fst))
        simp only [updFn, lookupA]
        rw [if_neg (fun hc => hpi hc.symm)]
    · dsimp only
      rw [List.map_cons, ih _ hnd.2]
      congr 1
      simp [updFn, hsub _ (hrest_asg _)]

end Procmon

namespace Procmon

/-- With no obstacles, positive heights and the code's 2-pixel spacing, one
reposition scan leaves the widgets in strictly descending y order, bounded
by the running expectation. -/
lemma updateLoop_desc (spacing screenW margin_right : ℤ) (hsp : 2 ≤ spacing) :
    ∀ (expY : ℤ) (S : List (ℕ × Notif)),
    (∀ p ∈ S, (p.2.is_hovered || p.2.context_menu_active) = false) →
    (∀ p ∈ S, 1 ≤ p.2.height) →
    ((updateLoop spacing screenW margin_right [] expY S).1.Pairwise
      (fun a b => b.2.y < a.2.y))
    ∧ (∀ p ∈ (updateLoop spacing screenW margin_right [] expY S).1,
        p.2.y ≤ expY + 1) := by
  intro expY S
  induction S generalizing expY with
  | nil => intro _ _; simp [updateLoop]
  | cons e rest ih =>
    intro hflags hheights
    obtain ⟨i, n⟩ := e
    have hn_flag : (n.is_hovered || n.context_menu_active) = false :=
      hflags (i, n) (by simp)
    have hn_height : 1 ≤ n.height := hheights (i, n) (by simp)
    have hrest_flags : ∀ p ∈ rest, (p.2.is_hovered || p.2.context_menu_active) = false :=
      fun p hp => hflags p (by simp [hp])
    have hrest_heights : ∀ p ∈ rest, 1 ≤ p.2.height :=
      fun p hp => hheights p (by simp [hp])
    simp only [updateLoop]
    rw [if_neg (by rw [hn_flag]; exact Bool.false_ne_true)]
    rw [if_neg (by simp)]
    split_ifs with h3 h4 h5
    all_goals dsimp only
    · -- moved, expanded/pinned width: lands exactly at expY - height
      obtain ⟨ihp, ihb⟩ := ih (expY - n.height - spacing) hrest_flags hrest_heights
      constructor
      · rw [List.pairwise_cons]
        refine ⟨fun p hp => ?_, ihp⟩
        have := ihb p hp
        dsimp only at this ⊢
        omega
      · intro p hp
        rcases List.mem_cons.mp hp with h6 | h6
        · rw [h6]; dsimp only; omega
        · have := ihb p h6; omega
    · -- within epsilon, expanded/pinned width: stays, within 2 of expectation
      have habs : |n.y - (expY - n.height)| ≤ 2 := by
        rcases not_or.mp h4 with ⟨ha, -⟩
        exact not_lt.mp ha
      have hb2 : n.y ≤ expY - n.height + 2 := by
        have := (abs_le.mp habs).2
        omega
      obtain ⟨ihp, ihb⟩ := ih (n.y - spacing) hrest_flags hrest_heights
      constructor
      · rw [List.pairwise_cons]
        refine ⟨fun p hp => ?_, ihp⟩
        have := ihb p hp
        dsimp only at this ⊢
        omega
      · intro p hp
        rcases List.mem_cons.mp hp with h6 | h6
        · rw [h6]; dsimp only; omega
        · have := ihb p h6; omega
    · -- moved, collapsed width
      obtain ⟨ihp, ihb⟩ := ih (expY - n.height - spacing) hrest_flags hrest_heights
      constructor
      · rw [List.pairwise_cons]
        refine ⟨fun p hp => ?_, ihp⟩
        have := ihb p hp
        dsimp only at this ⊢
        omega
      · intro p hp
        rcases List.mem_cons.mp hp with h6 | h6
        · rw [h6]; dsimp only; omega
        · have := ihb p h6; omega
    · -- within epsilon, collapsed width
      have habs : |n.y - (expY - n.height)| ≤ 2 := by
        rcases not_or.mp h5 with ⟨ha, -⟩
        exact not_lt.mp ha
      have hb2 : n.y ≤ expY - n.height + 2 := by
        have := (abs_le.mp habs).2
        omega
      obtain ⟨ihp, ihb⟩ := ih (n.y - spacing) hrest_flags hrest_heights
      constructor
      · rw [List.pairwise_cons]
        refine ⟨fun p hp => ?_, ihp⟩
        have := ihb p hp
        dsimp only at this ⊢
        omega
      · intro p hp
        rcases List.mem_cons.mp hp with h6 | h6
        · rw [h6]; dsimp only; omega
        · have := ihb p h6; omega

end Procmon

namespace Procmon

/-- Unfolding of the reposition scan on one widget when there are no
obstacle records. -/
lemma updateLoop_cons (spacing screenW margin_right expY : ℤ) (i : ℕ)
    (n : Notif) (rest : List (ℕ × Notif)) :
    updateLoop spacing screenW margin_right [] expY ((i, n) :: rest)
      = (if (n.is_hovered || n.context_menu_active) = true then
          ((i, n) :: (updateLoop spacing screenW margin_right [] (n.y - spacing) rest).1,
            (updateLoop spacing screenW margin_right [] (n.y - spacing) rest).2)
        else if 2 < |n.y - (expY - n.height)| ∨
            2 < |n.x - (screenW - (if (n.expanded || n.is_pinned) = true
              then n.full_width else n.collapsed_width) - margin_right)| then
          ((i, { n with
              x := screenW - (if (n.expanded || n.is_pinned) = true
                then n.full_width else n.collapsed_width) - margin_right,
              y := expY - n.height }) ::
              (updateLoop spacing screenW margin_right []
                (expY - n.height - spacing) rest).1,
            (i, screenW - (if (n.expanded || n.is_pinned) = true
                then n.full_width else n.collapsed_width) - margin_right,
              expY - n.height) ::
              (updateLoop spacing screenW margin_right []
                (expY - n.height - spacing) rest).2)
        else
          ((i, n) :: (updateLoop spacing screenW margin_right [] (n.y - spacing) rest).1,
            (updateLoop spacing screenW margin_right [] (n.y - spacing) rest).2)) := by
  simp only [updateLoop, List.any_nil, Bool.false_eq_true, if_false]

/-- With no obstacles, the reposition scan is a projection: running it again
on its own output, from the same anchor, moves nothing. -/
lemma updateLoop_fixed (spacing screenW margin_right : ℤ) :
    ∀ (expY : ℤ) (S : List (ℕ × Notif)),
    updateLoop spacing screenW margin_right [] expY
        ((updateLoop spacing screenW margin_right [] expY S).1)
      = ((updateLoop spacing screenW margin_right [] expY S).1, []) := by
  intro expY S
  induction S generalizing expY with
  | nil => rfl
  | cons e rest ih =>
    obtain ⟨i, n⟩ := e
    rw [updateLoop_cons]
    by_cases h1 : (n.is_hovered || n.context_menu_active) = true
    · rw [if_pos h1]
      dsimp only
      rw [updateLoop_cons, if_pos h1, ih (n.y - spacing)]
    · rw [if_neg h1]
      by_cases h2 : 2 < |n.y - (expY - n.height)| ∨
          2 < |n.x - (screenW - (if (n.expanded || n.is_pinned) = true
            then n.full_width else n.collapsed_width) - margin_right)|
      · rw [if_pos h2]
        dsimp only
        rw [updateLoop_cons]
        dsimp only
        rw [if_neg h1]
        rw [if_neg (by simp)]
        rw [ih (expY - n.height - spacing)]
      · rw [if_neg h2]
        dsimp only
        rw [updateLoop_cons, if_neg h1, if_neg h2, ih (n.y - spacing)]

end Procmon

namespace Procmon

/-- C9 amended, main theorem: with no hovered or menu-active record among
the visible widgets, positive visible heights, and the code's fixed spacing
of 2, a second reposition pass on an unchanged state changes nothing. -/
theorem C9_reposition_idempotent_no_obstacles (m : Mgr)
    (hspacing : m.spacing = 2)
    (hflags : ∀ n ∈ m.notifications, n.visible = true →
      (n.is_hovered || n.context_menu_active) = false)
    (hheights : ∀ n ∈ m.notifications, n.visible = true → 1 ≤ n.height) :
    update_positions (update_positions m) = update_positions m := by
  by_cases h1 : m.notifications.isEmpty = true
  · have hid : update_positions m = m := by
      simp only [update_positions]
      rw [if_pos h1]
    rw [hid, hid]
  by_cases h2 : (sortDescBy (fun p => p.2.y) (visEnum m.notifications)).isEmpty = true
  · have hid : update_positions m = m := by
      simp only [update_positions]
      rw [if_neg h1, if_pos h2]
    rw [hid, hid]
  -- main case
  have hS_flags : ∀ p ∈ sortDescBy (fun p => p.2.y) (visEnum m.notifications),
      (p.2.is_hovered || p.2.context_menu_active) = false := by
    intro p hp
    obtain ⟨hget, hvis⟩ := mem_sorted_visEnum m.notifications p hp
    exact hflags p.2 (List.get?_mem hget) hvis
  have hS_heights : ∀ p ∈ sortDescBy (fun p => p.2.y) (visEnum m.notifications),
      1 ≤ p.2.height := by
    intro p hp
    obtain ⟨hget, hvis⟩ := mem_sorted_visEnum m.notifications p hp
    exact hheights p.2 (List.get?_mem hget) hvis
  have hspecials : ((sortDescBy (fun p => p.2.y) (visEnum m.notifications)).map
      Prod.snd).filter (fun n => n.is_hovered || n.context_menu_active) = [] := by
    rw [List.filter_eq_nil_iff]
    intro nn hnn
    obtain ⟨p, hp, hpe⟩ := List.mem_map.mp hnn
    rw [← hpe]
    rw [hS_flags p hp]
    exact Bool.false_ne_true
  have hupd : update_positions m
      = { m with
          notifications :=
            applyAsg
              (updateLoop m.spacing m.screenW m.margin_right []
                (m.screenH - m.margin_bottom)
                (sortDescBy (fun p => p.2.y) (visEnum m.notifications))).2
              m.notifications } := by
    simp only [update_positions]
    rw [if_neg h1, if_neg h2, hspecials]
  have hmap := updateLoop_fst_eq_map m.spacing m.screenW m.margin_right []
    (m.screenH - m.margin_bottom)
    (sortDescBy (fun p => p.2.y) (visEnum m.notifications))
    (sorted_visEnum_nodup m.notifications)
  have hdesc := (updateLoop_desc m.spacing m.screenW m.margin_right
    (by rw [hspacing]) (m.screenH - m.margin_bottom)
    (sortDescBy (fun p => p.2.y) (visEnum m.notifications))
    hS_flags hS_heights).1
  -- the second pass sorts the updated widgets back into the scan's own order
  have hS2 : sortDescBy (fun p => p.2.y) (visEnum (applyAsg
      (updateLoop m.spacing m.screenW m.margin_right []
        (m.screenH - m.margin_bottom)
        (sortDescBy (fun p => p.2.y) (visEnum m.notifications))).2
      m.notifications))
      = (updateLoop m.spacing m.screenW m.margin_right []
        (m.screenH - m.margin_bottom)
        (sortDescBy (fun p => p.2.y) (visEnum m.notifications))).1 := by
    rw [visEnum_applyAsg]
    apply sorted_perm_unique (fun p => p.2.y)
    · -- permutation
      have hp1 := sortDescBy_perm (fun p : ℕ × Notif => p.2.y)
        ((visEnum m.notifications).map (fun p => (p.1, updFn
          (updateLoop m.spacing m.screenW m.margin_right []
            (m.screenH - m.margin_bottom)
            (sortDescBy (fun p => p.2.y) (visEnum m.notifications))).2 p)))
      have hp2 := ((sortDescBy_perm (fun p : ℕ × Notif => p.2.y)
        (visEnum m.notifications)).symm.map (fun p => (p.1, updFn
          (updateLoop m.spacing m.screenW m.margin_right []
            (m.screenH - m.margin_bottom)
            (sortDescBy (fun p => p.2.y) (visEnum m.notifications))).2 p)))
      rw [← hmap] at hp2
      exact hp1.trans hp2
    · exact hdesc
    · exact sortDescBy_pairwise _ _
  have hlength : (updateLoop m.spacing m.screenW m.margin_right []
      (m.screenH - m.margin_bottom)
      (sortDescBy (fun p => p.2.y) (visEnum m.notifications))).1.length
      = (sortDescBy (fun p => p.2.y) (visEnum m.notifications)).length :=
    updateLoop_fst_length _ _ _ _ _ _
  have hspecials2 : ((updateLoop m.spacing m.screenW m.margin_right []
      (m.screenH - m.margin_bottom)
      (sortDescBy (fun p => p.2.y) (visEnum m.notifications))).1.map
      Prod.snd).filter (fun n => n.is_hovered || n.context_menu_active) = [] := by
    rw [List.filter_eq_nil_iff]
    intro nn hnn
    obtain ⟨p, hp, hpe⟩ := List.mem_map.mp hnn
    rw [hmap] at hp
    obtain ⟨q, hq, hqe⟩ := List.mem_map.mp hp
    rw [← hpe, ← hqe]
    have hf := (updFn_fields (updateLoop m.spacing m.screenW m.margin_right []
      (m.screenH - m.margin_bottom)
      (sortDescBy (fun p => p.2.y) (visEnum m.notifications))).2 q)
    rw [show ((q.1, updFn (updateLoop m.spacing m.screenW m.margin_right []
      (m.screenH - m.margin_bottom)
      (sortDescBy (fun p => p.2.y) (visEnum m.notifications))).2 q) : ℕ × Notif).2
      = updFn (updateLoop m.spacing m.screenW m.margin_right []
      (m.screenH - m.margin_bottom)
      (sortDescBy (fun p => p.2.y) (visEnum m.notifications))).2 q from rfl]
    rw [hf.2.1, hf.2.2.1]
    rw [show (q.2.is_hovered || q.2.context_menu_active) = false from hS_flags q hq]
    exact Bool.false_ne_true
  -- unfold the second pass
  rw [hupd]
  simp only [update_positions]
  have hne1 : ¬ ((applyAsg (updateLoop m.spacing m.screenW m.margin_right []
      (m.screenH - m.margin_bottom)
      (sortDescBy (fun p => p.2.y) (visEnum m.notifications))).2
      m.notifications).isEmpty = true) := by
    rw [List.isEmpty_iff]
    intro hc
    apply h1
    rw [List.isEmpty_iff]
    have := applyAsg_length (updateLoop m.spacing m.screenW m.margin_right []
      (m.screenH - m.margin_bottom)
      (sortDescBy (fun p => p.2.y) (visEnum m.notifications))).2 m.notifications
    rw [hc] at this
    exact List.length_eq_zero.mp this.symm
  rw [if_neg hne1]
  rw [hS2]
  have hne2 : ¬ ((updateLoop m.spacing m.screenW m.margin_right []
      (m.screenH - m.margin_bottom)
      (sortDescBy (fun p => p.2.y) (visEnum m.notifications))).1.isEmpty = true) := by
    rw [List.isEmpty_iff]
    intro hc
    apply h2
    rw [List.isEmpty_iff]
    rw [hc] at hlength
    exact List.length_eq_zero.mp hlength.symm
  rw [if_neg hne2]
  rw [hspecials2]
  rw [updateLoop_fixed m.spacing m.screenW m.margin_right
    (m.screenH - m.margin_bottom)
    (sortDescBy (fun p => p.2.y) (visEnum m.notifications))]
  rw [applyAsg_nil]

end Procmon

namespace Procmon

/-- C9 counterexample state: a hovered record at y = 100 and a plain record
at y = 150 on a screen whose bottom anchor is 130, so the first pass lands
the plain record exactly on the hovered record's y. -/
def exMgrTie : Mgr :=
  ⟨[⟨0, 100, 30, 300, 60, false, true, false, false, true⟩,
    ⟨336, 150, 30, 300, 60, false, false, false, false, true⟩],
   [], [], 10, 30, 2, 4, 50, 400, 180⟩

/-- C9 counterexample: the reposition pass is NOT idempotent on every layout
state.  The first pass moves the plain record to y = 100 — a tie with the
hovered obstacle, which flips the sort order and the obstacle test — and the
second pass, with no intervening state change, moves it again to y = 68. -/
theorem C9_second_pass_moves_counterexample :
    ((update_positions exMgrTie).notifications.get? 1).map Notif.y = some 100
    ∧ ((update_positions (update_positions exMgrTie)).notifications.get? 1).map
        Notif.y = some 68
    ∧ update_positions (update_positions exMgrTie) ≠ update_positions exMgrTie := by
  refine ⟨by decide, by decide, by decide⟩

/-- Two plain stacked widgets for the C9 witness. -/
def exMgrTwo : Mgr :=
  ⟨[⟨336, 150, 30, 300, 60, false, false, false, false, true⟩,
    ⟨336, 60, 30, 300, 60, false, false, false, false, true⟩],
   [], [], 10, 30, 2, 4, 50, 400, 200⟩

/-- C9 witness: `C9_reposition_idempotent_no_obstacles` applied to a
two-widget state with no obstacles. -/
theorem C9_reposition_idempotent_no_obstacles_witness :
    update_positions (update_positions exMgrTwo) = update_positions exMgrTwo := by
  exact C9_reposition_idempotent_no_obstacles exMgrTwo rfl (by decide) (by decide)

end Procmon
